import Mathlib

/-!
Verification of the streaming LLM client core: the block-buffered Markdown
segmenter (`render/block_buffered.py`), the live renderer's stability logic
(`render/markdown_live.py`), the provider event mappers (`providers/bedrock.py`,
`providers/azure.py`), the streaming orchestrator (`streaming_client.py`) and
the tool executor (`tools/executor.py`).

Segmenter text is modelled as `List Char`.  The two Python regular expressions
used by the segmenter,

  `OPEN_FENCE_RE  = (?m)^(?P<fence>` three-or-more backticks or tildes
                    `)[ \t]*[^\n]*\n`
  `CLOSE_FENCE_FMT = (?m)^(?:F{3,})\s*$\n`   (F the fence character),

are modelled by explicit scanning functions: a `(?m)^`-anchored search tries
every line start from left to right, and the per-line matchers `openAt` /
`closeAt` reproduce the greedy matching of the bodies (for `closeAt`, the
greedy `\s*$\n` ends the match after the last newline of the whitespace run
that follows the fence-character run).  The `while` loop of `BlockBuffer.feed`
is modelled with an explicit fuel argument: every iteration consumes at least
one character of `pending`, so `pending.length + 1` fuel always suffices, and
all theorems are proved under that adequate-fuel hypothesis.
-/

namespace LlmStream

/-- The backtick character (written via its code point to keep the source
free of stray backticks). -/
def btick : Char := Char.ofNat 96

/-- Python `\s` on the ASCII characters that can appear here:
space, tab, newline, carriage return, vertical tab, form feed. -/
def isPyWs (c : Char) : Bool :=
  c = ' ' || c = '\t' || c = '\n' || c = '\r' || c = Char.ofNat 11 || c = Char.ofNat 12

/-- Length of the maximal leading run of the character `c`. -/
def runLen (c : Char) : List Char → Nat
  | [] => 0
  | x :: xs => if x = c then runLen c xs + 1 else 0

/-- Index of the first newline, if any. -/
def firstNl : List Char → Option Nat
  | [] => none
  | x :: xs => if x = '\n' then some 0 else (firstNl xs).map (· + 1)

/-- Index of the last newline, if any. -/
def lastNl : List Char → Option Nat
  | [] => none
  | x :: xs =>
    match lastNl xs with
    | some p => some (p + 1)
    | none => if x = '\n' then some 0 else none

/-- One anchored attempt of `OPEN_FENCE_RE` at the start of `s` (a line
start): a run of at least three backticks or at least three tildes, then
`[ \t]*[^\n]*` and the terminating newline.  Returns the fence character
(the first character of the fence group, as in `m_open.group("fence")[0]`)
and the match length (`m_open.end()` relative to the line start), which is
one past the first newline. -/
def openAt (s : List Char) : Option (Char × Nat) :=
  let bt := runLen btick s
  let td := runLen '~' s
  if 3 ≤ bt then (firstNl s).map (fun n => (btick, n + 1))
  else if 3 ≤ td then (firstNl s).map (fun n => ('~', n + 1))
  else none

/-- One anchored attempt of the compiled `CLOSE_FENCE_FMT` pattern
`(?m)^(?:F{3,})\s*$\n` at the start of `s` (a line start): a run of at
least three fence characters `f`, then greedy `\s*$\n`, which matches up
to and including the last newline of the whitespace run that follows the
fence run.  Returns the match length. -/
def closeAt (f : Char) (s : List Char) : Option Nat :=
  let r := runLen f s
  if r < 3 then none
  else
    match lastNl ((s.drop r).takeWhile isPyWs) with
    | none => none
    | some p => some (r + p + 1)

/-- `re.search` for a `(?m)^`-anchored pattern: try the per-line matcher
`pm` at every line start, left to right.  `atLS` records whether the
current position is a line start (position 0, or just after a newline);
`pos` is the absolute position reached so far. -/
def searchAux {α : Type} (pm : List Char → Option α) :
    Bool → Nat → List Char → Option (Nat × α)
  | true, pos, s =>
    match pm s with
    | some a => some (pos, a)
    | none =>
      match s with
      | [] => none
      | c :: r => searchAux pm (c = '\n') (pos + 1) r
  | false, _, [] => none
  | false, pos, c :: r => searchAux pm (c = '\n') (pos + 1) r

/-- `OPEN_FENCE_RE.search(p)`: position, fence character and match length
of the leftmost opening-fence match. -/
def openSearch (p : List Char) : Option (Nat × Char × Nat) :=
  searchAux openAt true 0 p

/-- `self._close_re.search(p)` for fence character `f`: position and match
length of the leftmost closing-fence match. -/
def closeSearch (f : Char) (p : List Char) : Option (Nat × Nat) :=
  searchAux (closeAt f) true 0 p

/-- `pending.find("\n\n")`: index of the first newline-newline pair. -/
def findNlNl : List Char → Option Nat
  | [] => none
  | [_] => none
  | a :: b :: r =>
    if a = '\n' ∧ b = '\n' then some 0 else (findNlNl (b :: r)).map (· + 1)

/-- `BlockBuffer` state: `pending` plus the combination of `in_code` and the
fence character baked into `_close_re` (`in_code` is true exactly when
`code = some c`, and then `_close_re` is the close pattern for `c`). -/
structure BBState where
  pending : List Char
  code : Option Char
  deriving DecidableEq, Repr

/-- A fresh `BlockBuffer()`. -/
def BBState.init : BBState := ⟨[], none⟩

/-- The decision taken by the non-code arm of the `feed` loop body:
paragraph flush (`para_idx != -1 and (m_open is None or para_idx <
m_open.start())`), fence handling (`if m_open`), or `break`. -/
inductive TextStep where
  | para (i : Nat)
  | fence (start : Nat) (c : Char) (ml : Nat)
  | stop
  deriving DecidableEq, Repr

/-- Evaluate `pending.find("\n\n")` and `OPEN_FENCE_RE.search(pending)` and
combine them exactly as the loop body does. -/
def textStep (p : List Char) : TextStep :=
  match findNlNl p, openSearch p with
  | some i, none => .para i
  | some i, some (start, c, ml) => if i < start then .para i else .fence start c ml
  | none, some (start, c, ml) => .fence start c ml
  | none, none => .stop

/-- The `while True` loop of `BlockBuffer.feed`, with fuel.  Each iteration
either emits block(s) cut off the front of `pending` and continues, or
breaks.  In the fence arm, when `start > 0` the source first flushes the
leading prose and re-anchors the open match on the sliced buffer (an
`assert` guarantees it still matches, with the same fence character and
length — see `openSearch_drop`); the model slices and reuses the match data
directly. -/
def feedLoopF : Nat → List Char → Option Char → List (List Char) × BBState
  | 0, p, code => ([], ⟨p, code⟩)
  | fuel + 1, p, code =>
    match code with
    | some c =>
      match closeSearch c p with
      | none => ([], ⟨p, some c⟩)
      | some qml =>
        let e := qml.1 + qml.2
        let r := feedLoopF fuel (p.drop e) none
        (p.take e :: r.1, r.2)
    | none =>
      match textStep p with
      | .para i =>
        let e := i + 2
        let r := feedLoopF fuel (p.drop e) none
        (p.take e :: r.1, r.2)
      | .fence start c ml =>
        let lead : List (List Char) := if start = 0 then [] else [p.take start]
        let p2 := p.drop start
        match closeSearch c (p2.drop ml) with
        | some qml2 =>
          let e := ml + qml2.1 + qml2.2
          let r := feedLoopF fuel (p2.drop e) none
          (lead ++ p2.take e :: r.1, r.2)
        | none => (lead, ⟨p2, some c⟩)
      | .stop => ([], ⟨p, none⟩)

/-- `BlockBuffer.feed(text)`: returns the completed blocks and the new
state.  An empty feed returns immediately; otherwise `text` is appended to
`pending` and the loop runs (fuel `pending.length + 1` is always enough). -/
def feed (st : BBState) (t : List Char) : List (List Char) × BBState :=
  if t = [] then ([], st)
  else
    let p := st.pending ++ t
    feedLoopF (p.length + 1) p st.code

/-- `BlockBuffer.flush_remaining()`: returns the leftover `pending` (or
`none` when empty, in which case the state is untouched) and resets the
state. -/
def flushRemaining (st : BBState) : Option (List Char) × BBState :=
  if st.pending = [] then (none, st) else (some st.pending, BBState.init)

/-- Run a whole sequence of `feed` calls from a fresh buffer, collecting
all returned blocks in order. -/
def runFeeds (ts : List (List Char)) : List (List Char) × BBState :=
  ts.foldl (fun acc t => let r := feed acc.2 t; (acc.1 ++ r.1, r.2)) ([], BBState.init)

example : (runFeeds ["Hello world\n\nNext".toList]).1 = ["Hello world\n\n".toList] := by decide

example :
    runFeeds ["```python\nprint(1)\n".toList, "```\n".toList] =
      (["```python\nprint(1)\n```\n".toList], BBState.init) := by decide

example :
    (runFeeds ["```\n".toList, "x\n".toList]).1 = ["```\n".toList] := by decide

example :
    (runFeeds ["`````\nx\n```\n".toList]).1 = ["`````\nx\n```\n".toList] := by decide

/-! ### Bounds for the search primitives -/

theorem takeWhile_length_le (q : Char → Bool) (l : List Char) :
    (l.takeWhile q).length ≤ l.length := by
  induction l with
  | nil => simp
  | cons x xs ih => simp only [List.takeWhile_cons]; split <;> simp <;> omega

theorem firstNl_lt {l : List Char} {n : Nat} (h : firstNl l = some n) : n < l.length := by
  induction l generalizing n with
  | nil => simp [firstNl] at h
  | cons x xs ih =>
    simp only [firstNl] at h
    split at h
    · simp_all
      omega
    · rcases hx : firstNl xs with _ | m <;> rw [hx] at h <;> simp_all
      omega

theorem lastNl_lt {l : List Char} {n : Nat} (h : lastNl l = some n) : n < l.length := by
  induction l generalizing n with
  | nil => simp [lastNl] at h
  | cons x xs ih =>
    simp only [lastNl] at h
    rcases hx : lastNl xs with _ | m <;> rw [hx] at h
    · split at h <;> simp_all
      omega
    · simp_all
      omega

theorem runLen_le (c : Char) (l : List Char) : runLen c l ≤ l.length := by
  induction l with
  | nil => simp [runLen]
  | cons x xs ih => simp only [runLen]; split <;> simp <;> omega

theorem findNlNl_le {p : List Char} {i : Nat} (h : findNlNl p = some i) :
    i + 2 ≤ p.length := by
  induction p generalizing i with
  | nil => simp [findNlNl] at h
  | cons a r ih =>
    match r, h with
    | [], h => simp [findNlNl] at h
    | b :: r, h =>
      simp only [findNlNl] at h
      split at h
      · simp_all
        omega
      · rcases hx : findNlNl (b :: r) with _ | m <;> rw [hx] at h
        · simp at h
        · simp at h
          have := ih hx
          simp only [List.length_cons] at this ⊢
          omega

theorem closeAt_bounds {f : Char} {s : List Char} {m : Nat} (h : closeAt f s = some m) :
    1 ≤ m ∧ m ≤ s.length := by
  simp only [closeAt] at h
  split at h
  · simp at h
  · rcases hw : lastNl ((s.drop (runLen f s)).takeWhile isPyWs) with _ | p <;>
      rw [hw] at h <;> simp_all
    have h1 := lastNl_lt hw
    have h2 : ((s.drop (runLen f s)).takeWhile isPyWs).length ≤
        (s.drop (runLen f s)).length := takeWhile_length_le _ _
    have h3 : (s.drop (runLen f s)).length = s.length - runLen f s := by simp
    have h4 := runLen_le f s
    omega

theorem openAt_bounds {s : List Char} {c : Char} {ml : Nat} (h : openAt s = some (c, ml)) :
    1 ≤ ml ∧ ml ≤ s.length := by
  simp only [openAt] at h
  split at h
  · rcases hn : firstNl s with _ | n <;> rw [hn] at h <;> simp_all
    have := firstNl_lt hn
    omega
  · split at h
    · rcases hn : firstNl s with _ | n <;> rw [hn] at h <;> simp_all
      have := firstNl_lt hn
      omega
    · simp at h

theorem searchAux_sound {α : Type} {pm : List Char → Option α} :
    ∀ {ls : Bool} {pos : Nat} {p : List Char} {q : Nat} {a : α},
      searchAux pm ls pos p = some (q, a) →
      ∃ k, k ≤ p.length ∧ q = pos + k ∧ pm (p.drop k) = some a := by
  intro ls pos p
  induction p generalizing ls pos with
  | nil =>
    intro q a h
    match ls with
    | true =>
      simp only [searchAux] at h
      rcases hm : pm [] with _ | v <;> rw [hm] at h
      · simp at h
      · simp only [Option.some.injEq, Prod.mk.injEq] at h
        exact ⟨0, by simp, by omega, by simp [hm, h.2]⟩
    | false => simp [searchAux] at h
  | cons x xs ih =>
    intro q a h
    match ls with
    | true =>
      simp only [searchAux] at h
      rcases hm : pm (x :: xs) with _ | v <;> rw [hm] at h
      · obtain ⟨k, hk, hq, hpm⟩ := ih h
        exact ⟨k + 1, by simp; omega, by omega, by simpa using hpm⟩
      · refine ⟨0, by simp, ?_, ?_⟩ <;> simp_all
    | false =>
      simp only [searchAux] at h
      obtain ⟨k, hk, hq, hpm⟩ := ih h
      exact ⟨k + 1, by simp; omega, by omega, by simpa using hpm⟩

theorem closeSearch_bounds {f : Char} {p : List Char} {q ml : Nat}
    (h : closeSearch f p = some (q, ml)) : 1 ≤ ml ∧ q + ml ≤ p.length := by
  obtain ⟨k, hk, hq, hpm⟩ := searchAux_sound h
  have := closeAt_bounds hpm
  simp at this
  omega

theorem openSearch_bounds {p : List Char} {q ml : Nat} {c : Char}
    (h : openSearch p = some (q, c, ml)) : 1 ≤ ml ∧ q + ml ≤ p.length := by
  obtain ⟨k, hk, hq, hpm⟩ := searchAux_sound h
  have := openAt_bounds hpm
  simp at this
  omega

theorem textStep_para {p : List Char} {i : Nat} (h : textStep p = .para i) :
    findNlNl p = some i ∧ i + 2 ≤ p.length := by
  have : findNlNl p = some i := by
    unfold textStep at h
    rcases h1 : findNlNl p with _ | j <;> rcases h2 : openSearch p with _ | ⟨s, c, ml⟩ <;>
      rw [h1, h2] at h <;> simp_all
    split at h <;> simp_all
  exact ⟨this, findNlNl_le this⟩

theorem textStep_fence {p : List Char} {s : Nat} {c : Char} {ml : Nat}
    (h : textStep p = .fence s c ml) : openSearch p = some (s, c, ml) := by
  unfold textStep at h
  rcases h1 : findNlNl p with _ | j <;> rcases h2 : openSearch p with _ | ⟨s', c', ml'⟩ <;>
    rw [h1, h2] at h <;> simp_all
  split at h <;> simp_all

/-! ### C1: round trip — no character lost, none duplicated -/

theorem feedLoopF_concat :
    ∀ (fuel : Nat) (p : List Char) (code : Option Char), p.length < fuel →
      (feedLoopF fuel p code).1.flatten ++ (feedLoopF fuel p code).2.pending = p := by
  intro fuel
  induction fuel with
  | zero => intro p code h; omega
  | succ fuel ih =>
    intro p code h
    match code with
    | some c =>
      rcases hcs : closeSearch c p with _ | ⟨q, ml⟩
      · simp [feedLoopF, hcs]
      · have hb := closeSearch_bounds hcs
        have hrec := ih (p.drop (q + ml)) none (by simp; omega)
        simp only [feedLoopF, hcs, List.flatten_cons, List.append_assoc]
        rw [hrec]
        exact List.take_append_drop _ _
    | none =>
      rcases hts : textStep p with i | ⟨start, c, ml⟩ | _
      · have hb := textStep_para hts
        have hrec := ih (p.drop (i + 2)) none (by simp; omega)
        simp only [feedLoopF, hts, List.flatten_cons, List.append_assoc]
        rw [hrec]
        exact List.take_append_drop _ _
      · have hos := textStep_fence hts
        have hb := openSearch_bounds hos
        rcases hcs : closeSearch c ((p.drop start).drop ml) with _ | ⟨q2, ml2⟩
        · simp only [feedLoopF, hts, hcs]
          split
          · simp_all
          · simp [List.take_append_drop]
        · have hb2 := closeSearch_bounds hcs
          simp only [List.length_drop] at hb2
          have hrec := ih ((p.drop start).drop (ml + q2 + ml2)) none (by simp; omega)
          simp only [feedLoopF, hts, hcs]
          split
          · next hst =>
            subst hst
            simp only [List.drop_zero] at hrec ⊢
            simp only [List.nil_append, List.flatten_cons, List.append_assoc]
            rw [hrec]
            exact List.take_append_drop _ _
          · simp only [List.cons_append, List.nil_append, List.flatten_cons,
              List.append_assoc]
            rw [hrec, List.take_append_drop]
            exact List.take_append_drop _ _
      · simp [feedLoopF, hts]

theorem feed_concat (st : BBState) (t : List Char) :
    (feed st t).1.flatten ++ (feed st t).2.pending = st.pending ++ t := by
  unfold feed
  split
  · simp_all
  · exact feedLoopF_concat _ _ _ (by omega)

theorem runFeeds_concat (ts : List (List Char)) :
    (runFeeds ts).1.flatten ++ (runFeeds ts).2.pending = ts.flatten := by
  suffices h : ∀ (acc : List (List Char)) (st : BBState),
      (ts.foldl (fun acc t => let r := feed acc.2 t; (acc.1 ++ r.1, r.2)) (acc, st)).1.flatten ++
        (ts.foldl (fun acc t => let r := feed acc.2 t; (acc.1 ++ r.1, r.2)) (acc, st)).2.pending =
        acc.flatten ++ st.pending ++ ts.flatten by
    simpa [runFeeds, BBState.init] using h [] BBState.init
  induction ts with
  | nil => intro acc st; simp
  | cons t ts ih =>
    intro acc st
    have hfc := feed_concat st t
    simp only [List.foldl_cons]
    rw [ih (acc ++ (feed st t).1) (feed st t).2, List.flatten_append, List.flatten_cons]
    simp only [List.append_assoc]
    rw [← List.append_assoc (feed st t).1.flatten, hfc]
    simp [List.append_assoc]

/-! ### Line starts and characterization of the anchored search -/

/-- `k` is a position that the `(?m)^`-anchored scan treats as a line
start, when the scan entered the current suffix with line-start flag `ls`:
position 0 when the flag is set, and any position just after a newline. -/
def lsAt (ls : Bool) (p : List Char) (k : Nat) : Prop :=
  if k = 0 then ls = true else p[k - 1]? = some '\n'

theorem lsAt_zero {p : List Char} : lsAt true p 0 := by simp [lsAt]

theorem lsAt_cons {x : Char} {xs : List Char} {ls : Bool} {k : Nat} :
    lsAt (decide (x = '\n')) xs k ↔ lsAt ls (x :: xs) (k + 1) := by
  unfold lsAt
  rcases k with _ | k <;> simp

theorem searchAux_some {α : Type} {pm : List Char → Option α} :
    ∀ {p : List Char} {ls : Bool} {pos q : Nat} {a : α},
      searchAux pm ls pos p = some (q, a) →
      ∃ k, q = pos + k ∧ lsAt ls p k ∧ pm (p.drop k) = some a ∧
        ∀ j < k, lsAt ls p j → pm (p.drop j) = none := by
  intro p
  induction p with
  | nil =>
    intro ls pos q a h
    match ls with
    | true =>
      simp only [searchAux] at h
      rcases hm : pm [] with _ | v <;> rw [hm] at h
      · simp at h
      · simp only [Option.some.injEq, Prod.mk.injEq] at h
        exact ⟨0, by omega, lsAt_zero, by simp [hm, h.2],
          fun j hj _ => absurd hj (Nat.not_lt_zero j)⟩
    | false => simp [searchAux] at h
  | cons x xs ih =>
    intro ls pos q a h
    match ls with
    | true =>
      simp only [searchAux] at h
      rcases hm : pm (x :: xs) with _ | v <;> rw [hm] at h
      · obtain ⟨k, hq, hls, hpm, hmin⟩ := ih h
        refine ⟨k + 1, by omega, lsAt_cons.mp hls, by simpa using hpm, ?_⟩
        intro j hj hlsj
        rcases j with _ | j
        · simpa using hm
        · have := hmin j (by omega) (lsAt_cons.mpr hlsj)
          simpa using this
      · simp only [Option.some.injEq, Prod.mk.injEq] at h
        exact ⟨0, by omega, lsAt_zero, by simp [hm, h.2],
          fun j hj _ => absurd hj (Nat.not_lt_zero j)⟩
    | false =>
      simp only [searchAux] at h
      obtain ⟨k, hq, hls, hpm, hmin⟩ := ih h
      refine ⟨k + 1, by omega, lsAt_cons.mp hls, by simpa using hpm, ?_⟩
      intro j hj hlsj
      rcases j with _ | j
      · simp [lsAt] at hlsj
      · have := hmin j (by omega) (lsAt_cons.mpr hlsj)
        simpa using this

theorem searchAux_none {α : Type} {pm : List Char → Option α} :
    ∀ {p : List Char} {ls : Bool} {pos : Nat}, searchAux pm ls pos p = none →
      ∀ j, lsAt ls p j → pm (p.drop j) = none := by
  intro p
  induction p with
  | nil =>
    intro ls pos h j hj
    match ls with
    | true =>
      simp only [searchAux] at h
      rcases hm : pm [] with _ | v <;> rw [hm] at h
      · rcases j with _ | j
        · simpa using hm
        · simp [lsAt] at hj
      · simp at h
    | false =>
      rcases j with _ | j
      · simp [lsAt] at hj
      · simp [lsAt] at hj
  | cons x xs ih =>
    intro ls pos h j hj
    match ls with
    | true =>
      simp only [searchAux] at h
      rcases hm : pm (x :: xs) with _ | v <;> rw [hm] at h
      · rcases j with _ | j
        · simpa using hm
        · have := ih h j (lsAt_cons.mpr hj)
          simpa using this
      · simp at h
    | false =>
      simp only [searchAux] at h
      rcases j with _ | j
      · simp [lsAt] at hj
      · have := ih h j (lsAt_cons.mpr hj)
        simpa using this

theorem searchAux_intro {α : Type} {pm : List Char → Option α} {p : List Char}
    {ls : Bool} {pos k : Nat} {a : α}
    (hls : lsAt ls p k) (hpm : pm (p.drop k) = some a)
    (hmin : ∀ j < k, lsAt ls p j → pm (p.drop j) = none) :
    searchAux pm ls pos p = some (pos + k, a) := by
  rcases h : searchAux pm ls pos p with _ | ⟨q, b⟩
  · have := searchAux_none h k hls
    rw [hpm] at this
    exact absurd this (by simp)
  · obtain ⟨k', hq, hls', hpm', hmin'⟩ := searchAux_some h
    have hkk : k' = k := by
      rcases Nat.lt_trichotomy k' k with hlt | heq | hgt
      · have hn := hmin k' hlt hls'
        rw [hn] at hpm'
        simp at hpm'
      · exact heq
      · have hn := hmin' k hgt hls
        rw [hpm] at hn
        simp at hn
    subst hkk
    rw [hpm] at hpm'
    simp only [Option.some.injEq] at hpm'
    rw [hq, hpm']

theorem openSearch_spec {p : List Char} {q ml : Nat} {c : Char}
    (h : openSearch p = some (q, c, ml)) :
    lsAt true p q ∧ openAt (p.drop q) = some (c, ml) ∧
      ∀ j < q, lsAt true p j → openAt (p.drop j) = none := by
  obtain ⟨k, hq, hls, hpm, hmin⟩ := searchAux_some h
  simp only [Nat.zero_add] at hq
  subst hq
  exact ⟨hls, hpm, hmin⟩

theorem openSearch_noneSpec {p : List Char} (h : openSearch p = none) :
    ∀ j, lsAt true p j → openAt (p.drop j) = none :=
  fun j hj => searchAux_none h j hj

theorem openSearch_intro {p : List Char} {k ml : Nat} {c : Char}
    (hls : lsAt true p k) (hpm : openAt (p.drop k) = some (c, ml))
    (hmin : ∀ j < k, lsAt true p j → openAt (p.drop j) = none) :
    openSearch p = some (k, c, ml) := by
  have h0 : searchAux openAt true 0 p = some (0 + k, (c, ml)) :=
    searchAux_intro hls hpm hmin
  simpa using h0

theorem closeSearch_spec {f : Char} {p : List Char} {q ml : Nat}
    (h : closeSearch f p = some (q, ml)) :
    lsAt true p q ∧ closeAt f (p.drop q) = some ml ∧
      ∀ j < q, lsAt true p j → closeAt f (p.drop j) = none := by
  obtain ⟨k, hq, hls, hpm, hmin⟩ := searchAux_some h
  simp only [Nat.zero_add] at hq
  subst hq
  exact ⟨hls, hpm, hmin⟩

theorem closeSearch_noneSpec {f : Char} {p : List Char} (h : closeSearch f p = none) :
    ∀ j, lsAt true p j → closeAt f (p.drop j) = none :=
  fun j hj => searchAux_none h j hj

theorem closeSearch_intro {f : Char} {p : List Char} {k ml : Nat}
    (hls : lsAt true p k) (hpm : closeAt f (p.drop k) = some ml)
    (hmin : ∀ j < k, lsAt true p j → closeAt f (p.drop j) = none) :
    closeSearch f p = some (k, ml) := by
  have h0 : searchAux (closeAt f) true 0 p = some (0 + k, ml) :=
    searchAux_intro hls hpm hmin
  simpa using h0

/-! ### Structure of the per-line matchers -/

theorem getP_take {l : List Char} {n i : Nat} (h : i < n) : (l.take n)[i]? = l[i]? := by
  rw [List.getElem?_take]
  simp [h]

theorem getP_pref {l m : List Char} (h : l <+: m) {i : Nat} (hi : i < l.length) :
    m[i]? = l[i]? := by
  obtain ⟨t, rfl⟩ := h
  rw [List.getElem?_append]
  simp [hi]

theorem getP_lt_length {l : List Char} {i : Nat} {x : Char} (h : l[i]? = some x) :
    i < l.length :=
  (List.getElem?_eq_some.mp h).1

theorem getP_cons_succ (x : Char) (xs : List Char) (j : Nat) :
    (x :: xs)[j + 1]? = xs[j]? := by simp

theorem runLen_getElem (c : Char) (l : List Char) : ∀ i < runLen c l, l[i]? = some c := by
  induction l with
  | nil => simp [runLen]
  | cons x xs ih =>
    intro i hi
    simp only [runLen] at hi
    split at hi
    · rcases i with _ | i
      · simp_all
      · simpa using ih i (by omega)
    · omega

theorem runLen_take (c : Char) (l : List Char) (k : Nat) :
    runLen c (l.take k) = min (runLen c l) k := by
  induction l generalizing k with
  | nil => simp [runLen]
  | cons x xs ih =>
    rcases k with _ | k
    · simp [runLen]
    · simp only [List.take_succ_cons, runLen]
      split <;> simp [ih] <;> omega

theorem runLen_append_of_lt (c : Char) {l : List Char} (h : runLen c l < l.length)
    (t : List Char) : runLen c (l ++ t) = runLen c l := by
  induction l with
  | nil => simp [runLen] at h
  | cons x xs ih =>
    by_cases hxc : x = c
    · simp only [runLen, if_pos hxc, List.length_cons] at h
      simp only [List.cons_append, runLen, if_pos hxc]
      exact congrArg (· + 1) (ih (by omega))
    · simp [List.cons_append, runLen, if_neg hxc]

theorem runLen_zero_of_head {c x : Char} {l : List Char} (h : l[0]? = some x)
    (hx : x ≠ c) : runLen c l = 0 := by
  match l with
  | [] => simp at h
  | y :: ys =>
    simp only [List.getElem?_cons_zero, Option.some.injEq] at h
    subst h
    simp [runLen, hx]

theorem firstNl_spec {l : List Char} {n : Nat} (h : firstNl l = some n) :
    l[n]? = some '\n' ∧ ∀ j < n, l[j]? ≠ some '\n' := by
  induction l generalizing n with
  | nil => simp [firstNl] at h
  | cons x xs ih =>
    simp only [firstNl] at h
    split at h
    · next hx =>
      simp only [Option.some.injEq] at h
      subst h
      exact ⟨by simp [hx], fun j hj => absurd hj (Nat.not_lt_zero j)⟩
    · next hx =>
      rcases hfx : firstNl xs with _ | m <;> rw [hfx] at h
      · simp at h
      · simp only [Option.map_some', Option.some.injEq] at h
        subst h
        obtain ⟨h1, h2⟩ := ih hfx
        constructor
        · simpa using h1
        · intro j hj
          rcases j with _ | j
          · simp [hx]
          · rw [getP_cons_succ]
            exact h2 j (by omega)

theorem firstNl_none {l : List Char} (h : firstNl l = none) :
    ∀ j : Nat, l[j]? ≠ some '\n' := by
  induction l with
  | nil => simp
  | cons x xs ih =>
    simp only [firstNl] at h
    split at h
    · simp at h
    · next hx =>
      rcases hfx : firstNl xs with _ | m <;> rw [hfx] at h
      · intro j
        rcases j with _ | j
        · simp [hx]
        · rw [getP_cons_succ]
          exact ih hfx j
      · simp at h

theorem firstNl_intro {l : List Char} {n : Nat} (h : l[n]? = some '\n') :
    ∃ m, firstNl l = some m ∧ m ≤ n := by
  rcases hf : firstNl l with _ | m
  · exact absurd h (firstNl_none hf n)
  · refine ⟨m, rfl, ?_⟩
    by_contra hc
    exact (firstNl_spec hf).2 n (by omega) h

theorem firstNl_take {l : List Char} {n : Nat} (h : firstNl l = some n) {k : Nat}
    (hk : n < k) : firstNl (l.take k) = some n := by
  obtain ⟨h1, h2⟩ := firstNl_spec h
  have h1t : (l.take k)[n]? = some '\n' := by rw [getP_take hk]; exact h1
  obtain ⟨m, hm, hmn⟩ := firstNl_intro h1t
  have hmv := (firstNl_spec hm).1
  rw [getP_take (by omega)] at hmv
  rcases Nat.lt_or_ge m n with hlt | hge
  · exact absurd hmv (h2 m hlt)
  · have : m = n := by omega
    subst this
    exact hm

theorem firstNl_append {l : List Char} {n : Nat} (h : firstNl l = some n)
    (t : List Char) : firstNl (l ++ t) = some n := by
  obtain ⟨h1, h2⟩ := firstNl_spec h
  have hn := getP_lt_length h1
  have h1a : (l ++ t)[n]? = some '\n' := by
    rw [List.getElem?_append]
    simp [hn, h1]
  obtain ⟨m, hm, hmn⟩ := firstNl_intro h1a
  have hmv := (firstNl_spec hm).1
  rw [List.getElem?_append, if_pos (by omega)] at hmv
  rcases Nat.lt_or_ge m n with hlt | hge
  · exact absurd hmv (h2 m hlt)
  · have : m = n := by omega
    subst this
    exact hm

theorem lastNl_none {l : List Char} (h : lastNl l = none) :
    ∀ j : Nat, l[j]? ≠ some '\n' := by
  induction l with
  | nil => simp
  | cons x xs ih =>
    simp only [lastNl] at h
    rcases hx : lastNl xs with _ | m <;> rw [hx] at h
    · by_cases hxn : x = '\n'
      · rw [if_pos hxn] at h
        simp at h
      · intro j
        rcases j with _ | j
        · simp [hxn]
        · rw [getP_cons_succ]
          exact ih hx j
    · simp at h

theorem lastNl_spec {l : List Char} {n : Nat} (h : lastNl l = some n) :
    l[n]? = some '\n' ∧ ∀ j, n < j → l[j]? ≠ some '\n' := by
  induction l generalizing n with
  | nil => simp [lastNl] at h
  | cons x xs ih =>
    simp only [lastNl] at h
    rcases hx : lastNl xs with _ | m <;> rw [hx] at h
    · by_cases hxn : x = '\n'
      · rw [if_pos hxn] at h
        simp only [Option.some.injEq] at h
        subst h
        refine ⟨by simp [hxn], ?_⟩
        intro j hj
        rcases j with _ | j
        · omega
        · rw [getP_cons_succ]
          exact lastNl_none hx j
      · rw [if_neg hxn] at h
        simp at h
    · simp only [Option.some.injEq] at h
      subst h
      obtain ⟨h1, h2⟩ := ih hx
      refine ⟨by simpa using h1, ?_⟩
      intro j hj
      rcases j with _ | j
      · omega
      · rw [getP_cons_succ]
        exact h2 j (by omega)

theorem lastNl_intro {l : List Char} {n : Nat} (h : l[n]? = some '\n') :
    ∃ m, lastNl l = some m ∧ n ≤ m := by
  rcases hf : lastNl l with _ | m
  · exact absurd h (lastNl_none hf n)
  · refine ⟨m, rfl, ?_⟩
    by_contra hc
    exact (lastNl_spec hf).2 n (by omega) h

theorem takeWhile_take (q : Char → Bool) (l : List Char) (k : Nat) :
    (l.take k).takeWhile q = (l.takeWhile q).take k := by
  induction l generalizing k with
  | nil => simp
  | cons x xs ih =>
    rcases k with _ | k
    · simp
    · simp only [List.take_succ_cons, List.takeWhile_cons]
      split <;> simp [ih]

theorem takeWhile_getElem? {q : Char → Bool} {l : List Char} {i : Nat} {x : Char}
    (h : (l.takeWhile q)[i]? = some x) : l[i]? = some x := by
  have hp := List.takeWhile_prefix (l := l) q
  have hi := getP_lt_length h
  rw [getP_pref hp hi]
  exact h

theorem runLen_le_of_nl {c : Char} (hc : c ≠ '\n') {s : List Char} {n : Nat}
    (h : firstNl s = some n) : runLen c s ≤ n := by
  by_contra hlt
  have hval := runLen_getElem c s n (by omega)
  rw [(firstNl_spec h).1] at hval
  exact hc (Option.some.inj hval).symm

theorem openAt_intro_bt {s : List Char} {n : Nat} (h3 : 3 ≤ runLen btick s)
    (hn : firstNl s = some n) : openAt s = some (btick, n + 1) := by
  simp only [openAt]
  rw [if_pos h3, hn]
  rfl

theorem openAt_intro_td {s : List Char} {n : Nat} (hb : runLen btick s < 3)
    (h3 : 3 ≤ runLen '~' s) (hn : firstNl s = some n) :
    openAt s = some ('~', n + 1) := by
  simp only [openAt]
  rw [if_neg (by omega), if_pos h3, hn]
  rfl

theorem openAt_elim {s : List Char} {c : Char} {ml : Nat} (h : openAt s = some (c, ml)) :
    3 ≤ runLen c s ∧ c ≠ '\n' ∧ firstNl s = some (ml - 1) ∧ 1 ≤ ml ∧
      (c = btick ∨ (c = '~' ∧ runLen btick s < 3)) := by
  simp only [openAt] at h
  split at h
  · rcases hn : firstNl s with _ | n <;> rw [hn] at h
    · simp at h
    · simp only [Option.map_some', Option.some.injEq, Prod.mk.injEq] at h
      obtain ⟨hc, hml⟩ := h
      subst hc
      refine ⟨by assumption, by decide, ?_, by omega, Or.inl rfl⟩
      congr 1
      omega
  · split at h
    · next hbt htd =>
      rcases hn : firstNl s with _ | n <;> rw [hn] at h
      · simp at h
      · simp only [Option.map_some', Option.some.injEq, Prod.mk.injEq] at h
        obtain ⟨hc, hml⟩ := h
        subst hc
        refine ⟨htd, by decide, ?_, by omega, Or.inr ⟨rfl, by omega⟩⟩
        congr 1
        omega
    · simp at h

theorem openAt_nl {s : List Char} {c : Char} {ml : Nat} (h : openAt s = some (c, ml)) :
    s[ml - 1]? = some '\n' ∧ ∀ j < ml - 1, s[j]? ≠ some '\n' :=
  firstNl_spec (openAt_elim h).2.2.1

theorem openAt_run_lt {s : List Char} {c : Char} {ml : Nat}
    (h : openAt s = some (c, ml)) : runLen c s < ml := by
  obtain ⟨h3, hc, hf, h1, _⟩ := openAt_elim h
  have := runLen_le_of_nl hc hf
  omega

theorem openAt_take {s : List Char} {c : Char} {ml : Nat} (h : openAt s = some (c, ml))
    {k : Nat} (hk : ml ≤ k) : openAt (s.take k) = some (c, ml) := by
  obtain ⟨h3, hc, hf, h1, hcc⟩ := openAt_elim h
  have hrlt := openAt_run_lt h
  have hfk : firstNl (s.take k) = some (ml - 1) := firstNl_take hf (by omega)
  have hml : ml - 1 + 1 = ml := by omega
  rcases hcc with rfl | ⟨rfl, hb⟩
  · have := openAt_intro_bt (s := s.take k) (by rw [runLen_take]; omega) hfk
    rw [this, hml]
  · have := openAt_intro_td (s := s.take k) (by rw [runLen_take]; omega)
      (by rw [runLen_take]; omega) hfk
    rw [this, hml]

theorem openAt_of_take {s : List Char} {k : Nat} {c : Char} {ml : Nat}
    (h : openAt (s.take k) = some (c, ml)) : ∃ ml', openAt s = some (c, ml') := by
  obtain ⟨h3, hc, hf, h1, hcc⟩ := openAt_elim h
  rw [runLen_take] at h3
  have hnlk : ml - 1 < (s.take k).length := getP_lt_length (firstNl_spec hf).1
  have hklen : ml - 1 < k := by
    simp only [List.length_take] at hnlk
    omega
  have hnl : s[ml - 1]? = some '\n' := by
    rw [← getP_take hklen]
    exact (firstNl_spec hf).1
  obtain ⟨m, hm, _⟩ := firstNl_intro hnl
  rcases hcc with rfl | ⟨rfl, hb⟩
  · exact ⟨m + 1, openAt_intro_bt (by omega) hm⟩
  · rw [runLen_take] at hb
    have hbs : runLen btick s = 0 := by
      have h0 : (s.take k)[0]? = some '~' := by
        apply runLen_getElem
        rw [runLen_take]
        omega
      rw [getP_take (by omega)] at h0
      exact runLen_zero_of_head h0 (by decide)
    exact ⟨m + 1, openAt_intro_td (by omega) (by omega) hm⟩

theorem openAt_append {s : List Char} {c : Char} {ml : Nat}
    (h : openAt s = some (c, ml)) (t : List Char) : openAt (s ++ t) = some (c, ml) := by
  obtain ⟨h3, hc, hf, h1, hcc⟩ := openAt_elim h
  have hlen : ml - 1 < s.length := firstNl_lt hf
  have hrb : runLen btick s < s.length := by
    have := runLen_le_of_nl (show btick ≠ '\n' by decide) hf
    omega
  have hrt : runLen '~' s < s.length := by
    have := runLen_le_of_nl (show '~' ≠ '\n' by decide) hf
    omega
  have hfa := firstNl_append hf t
  have hml : ml - 1 + 1 = ml := by omega
  rcases hcc with rfl | ⟨rfl, hb⟩
  · have := openAt_intro_bt (s := s ++ t) (by rw [runLen_append_of_lt _ hrb]; omega) hfa
    rw [this, hml]
  · have := openAt_intro_td (s := s ++ t) (by rw [runLen_append_of_lt _ hrb]; omega)
      (by rw [runLen_append_of_lt _ hrt]; omega) hfa
    rw [this, hml]

theorem closeAt_elim {f : Char} {s : List Char} {m : Nat} (h : closeAt f s = some m) :
    3 ≤ runLen f s ∧ ∃ p, lastNl ((s.drop (runLen f s)).takeWhile isPyWs) = some p ∧
      m = runLen f s + p + 1 := by
  simp only [closeAt] at h
  split at h
  · simp at h
  · next hr =>
    rcases hw : lastNl ((s.drop (runLen f s)).takeWhile isPyWs) with _ | p <;>
        rw [hw] at h
    · simp at h
    · simp only [Option.some.injEq] at h
      exact ⟨by omega, p, rfl, h.symm⟩

theorem closeAt_intro {f : Char} {s : List Char} {p : Nat} (h3 : 3 ≤ runLen f s)
    (hw : lastNl ((s.drop (runLen f s)).takeWhile isPyWs) = some p) :
    closeAt f s = some (runLen f s + p + 1) := by
  simp only [closeAt]
  rw [if_neg (by omega), hw]

theorem closeAt_last_nl {f : Char} {s : List Char} {m : Nat} (h : closeAt f s = some m) :
    s[m - 1]? = some '\n' := by
  obtain ⟨h3, p, hw, hm⟩ := closeAt_elim h
  have h1 := (lastNl_spec hw).1
  have h2 := takeWhile_getElem? h1
  rw [List.getElem?_drop] at h2
  have : m - 1 = runLen f s + p := by omega
  rw [this]
  exact h2

theorem closeAt_take_exact {f : Char} {s : List Char} {m : Nat}
    (h : closeAt f s = some m) : closeAt f (s.take m) = some m := by
  obtain ⟨h3, p, hw, hm⟩ := closeAt_elim h
  have hr3 : runLen f (s.take m) = runLen f s := by
    rw [runLen_take]
    have := closeAt_bounds h
    omega
  have hws : ((s.take m).drop (runLen f s)).takeWhile isPyWs =
      (((s.drop (runLen f s)).takeWhile isPyWs).take (p + 1)) := by
    rw [List.drop_take, takeWhile_take]
    congr 1
    omega
  have hlast : lastNl (((s.drop (runLen f s)).takeWhile isPyWs).take (p + 1)) = some p := by
    have hget : (((s.drop (runLen f s)).takeWhile isPyWs).take (p + 1))[p]? = some '\n' := by
      rw [getP_take (by omega)]
      exact (lastNl_spec hw).1
    obtain ⟨m2, hm2, hm2p⟩ := lastNl_intro hget
    have : m2 < p + 1 := by
      have := lastNl_lt hm2
      have h2 : (((s.drop (runLen f s)).takeWhile isPyWs).take (p + 1)).length ≤ p + 1 := by
        simp
      omega
    have : m2 = p := by omega
    subst this
    exact hm2
  have := closeAt_intro (f := f) (s := s.take m) (by omega) (by rw [hr3, hws]; exact hlast)
  rw [this, hr3]
  congr 1
  omega

theorem closeAt_of_take {f : Char} {s : List Char} {k m : Nat}
    (h : closeAt f (s.take k) = some m) : ∃ m', closeAt f s = some m' := by
  obtain ⟨h3, p, hw, hm⟩ := closeAt_elim h
  rw [runLen_take] at h3
  rcases le_or_lt (runLen f s) k with hrk | hrk
  · have hr : runLen f (s.take k) = runLen f s := by rw [runLen_take]; omega
    rw [hr] at hw
    rw [List.drop_take, takeWhile_take] at hw
    have h1 := (lastNl_spec hw).1
    have hp : p < k - runLen f s := by
      have := getP_lt_length h1
      simp at this
      omega
    rw [getP_take hp] at h1
    obtain ⟨m2, hm2, _⟩ := lastNl_intro h1
    exact ⟨runLen f s + m2 + 1, closeAt_intro (by omega) hm2⟩
  · exfalso
    have hr : runLen f (s.take k) = k := by rw [runLen_take]; omega
    rw [hr] at hw
    rw [List.drop_eq_nil_of_le (by simp)] at hw
    simp [lastNl] at hw

theorem closeSearch_drop {f : Char} {p : List Char} {q ml d : Nat}
    (hls : lsAt true p d) (h : closeSearch f p = some (q, ml)) (hdq : d ≤ q) :
    closeSearch f (p.drop d) = some (q - d, ml) := by
  obtain ⟨hq, hpm, hmin⟩ := closeSearch_spec h
  apply closeSearch_intro (k := q - d)
  · unfold lsAt
    split
    · rfl
    · next hne =>
      rw [List.getElem?_drop]
      unfold lsAt at hq
      rw [if_neg (by omega)] at hq
      have : d + (q - d - 1) = q - 1 := by omega
      rw [this]
      exact hq
  · rw [List.drop_drop]
    have : d + (q - d) = q := by omega
    rw [this]
    exact hpm
  · intro j hj hlsj
    rw [List.drop_drop]
    have hlsdj : lsAt true p (d + j) := by
      rcases Nat.eq_zero_or_pos j with hj0 | hjpos
      · subst hj0
        simpa using hls
      · unfold lsAt at hlsj ⊢
        rw [if_neg (by omega)] at hlsj ⊢
        rw [List.getElem?_drop] at hlsj
        have : d + (j - 1) = d + j - 1 := by omega
        rw [this] at hlsj
        exact hlsj
    exact hmin (d + j) (by omega) hlsdj

theorem lsAt_take {p : List Char} {k j : Nat} (hj : j ≤ k) :
    lsAt true (p.take k) j ↔ lsAt true p j := by
  unfold lsAt
  split
  · exact Iff.rfl
  · next hne =>
    rw [getP_take (by omega)]

theorem closeSearch_take_exact {f : Char} {p : List Char} {q ml : Nat}
    (h : closeSearch f p = some (q, ml)) :
    closeSearch f (p.take (q + ml)) = some (q, ml) := by
  obtain ⟨hls, hpm, hmin⟩ := closeSearch_spec h
  apply closeSearch_intro (k := q)
  · exact (lsAt_take (by omega)).mpr hls
  · rw [List.drop_take]
    have : q + ml - q = ml := by omega
    rw [this]
    exact closeAt_take_exact hpm
  · intro j hj hlsj
    rw [List.drop_take]
    rcases hcat : closeAt f ((p.drop j).take (q + ml - j)) with _ | m2
    · rfl
    · exfalso
      obtain ⟨m3, hm3⟩ := closeAt_of_take hcat
      have := hmin j hj ((lsAt_take (by omega)).mp hlsj)
      rw [this] at hm3
      simp at hm3

theorem openSearch_at0 {p : List Char} {c : Char} {ml : Nat}
    (h : openAt p = some (c, ml)) : openSearch p = some (0, c, ml) :=
  openSearch_intro lsAt_zero (by simpa using h)
    (fun j hj _ => absurd hj (Nat.not_lt_zero j))

theorem openSearch_drop {p : List Char} {start ml : Nat} {c : Char}
    (h : openSearch p = some (start, c, ml)) : openAt (p.drop start) = some (c, ml) :=
  (openSearch_spec h).2.1

theorem findNlNl_spec {p : List Char} {i : Nat} (h : findNlNl p = some i) :
    p[i]? = some '\n' ∧ p[i + 1]? = some '\n' ∧
      ∀ j < i, ¬(p[j]? = some '\n' ∧ p[j + 1]? = some '\n') := by
  induction p generalizing i with
  | nil => simp [findNlNl] at h
  | cons a r ih =>
    match r with
    | [] => simp [findNlNl] at h
    | b :: r2 =>
      simp only [findNlNl] at h
      split at h
      · next hab =>
        simp only [Option.some.injEq] at h
        subst h
        exact ⟨by simp [hab.1], by simp [hab.2],
          fun j hj => absurd hj (Nat.not_lt_zero j)⟩
      · next hab =>
        rcases hx : findNlNl (b :: r2) with _ | m <;> rw [hx] at h
        · simp at h
        · simp only [Option.map_some', Option.some.injEq] at h
          subst h
          obtain ⟨h1, h2, h3⟩ := ih hx
          refine ⟨by simpa using h1, by simpa using h2, ?_⟩
          intro j hj hpair
          rcases j with _ | j
          · refine hab ⟨?_, ?_⟩
            · simpa using hpair.1
            · simpa using hpair.2
          · refine h3 j (by omega) ⟨?_, ?_⟩
            · simpa using hpair.1
            · simpa using hpair.2

theorem findNlNl_none {p : List Char} (h : findNlNl p = none) :
    ∀ j : Nat, ¬(p[j]? = some '\n' ∧ p[j + 1]? = some '\n') := by
  induction p with
  | nil => simp
  | cons a r ih =>
    match r with
    | [] =>
      intro j hpair
      rcases j with _ | j <;> simp at hpair
    | b :: r2 =>
      simp only [findNlNl] at h
      split at h
      · simp at h
      · next hab =>
        rcases hx : findNlNl (b :: r2) with _ | m <;> rw [hx] at h
        · intro j hpair
          rcases j with _ | j
          · refine hab ⟨?_, ?_⟩
            · simpa using hpair.1
            · simpa using hpair.2
          · refine ih hx j ⟨?_, ?_⟩
            · simpa using hpair.1
            · simpa using hpair.2
        · simp at h

theorem findNlNl_intro {p : List Char} {j : Nat} (h1 : p[j]? = some '\n')
    (h2 : p[j + 1]? = some '\n') : ∃ i, findNlNl p = some i ∧ i ≤ j := by
  rcases hf : findNlNl p with _ | i
  · exact absurd ⟨h1, h2⟩ (findNlNl_none hf j)
  · refine ⟨i, rfl, ?_⟩
    by_contra hc
    exact (findNlNl_spec hf).2.2 j (by omega) ⟨h1, h2⟩

theorem findNlNl_take_exact {p : List Char} {i : Nat} (h : findNlNl p = some i) :
    findNlNl (p.take (i + 2)) = some i := by
  obtain ⟨h1, h2, hmin⟩ := findNlNl_spec h
  have h1t : (p.take (i + 2))[i]? = some '\n' := by rw [getP_take (by omega)]; exact h1
  have h2t : (p.take (i + 2))[i + 1]? = some '\n' := by rw [getP_take (by omega)]; exact h2
  obtain ⟨m, hm, hmi⟩ := findNlNl_intro h1t h2t
  obtain ⟨hm1, hm2, _⟩ := findNlNl_spec hm
  rw [getP_take (by omega)] at hm1
  rw [getP_take (by omega)] at hm2
  rcases Nat.lt_or_ge m i with hlt | hge
  · exact absurd ⟨hm1, hm2⟩ (hmin m hlt)
  · have : m = i := by omega
    subst this
    exact hm

/-! ### Transfer of searches through truncation -/

theorem openSearch_take_some {p : List Char} {k q ml : Nat} {c : Char}
    (h : openSearch (p.take k) = some (q, c, ml)) :
    lsAt true p q ∧ q + 3 ≤ k ∧ ∃ mlp, openAt (p.drop q) = some (c, mlp) := by
  obtain ⟨hls, hat, hmin⟩ := openSearch_spec h
  rw [List.drop_take] at hat
  have h3 := (openAt_elim hat).1
  have hrun := runLen_le (c := c) (l := (p.drop q).take (k - q))
  simp only [List.length_take, List.length_drop] at hrun
  have hk3 : q + 3 ≤ k := by omega
  obtain ⟨mlp, hmlp⟩ := openAt_of_take hat
  exact ⟨(lsAt_take (by omega)).mp hls, hk3, mlp, hmlp⟩

theorem closeSearch_take_some {f : Char} {p : List Char} {k q ml : Nat}
    (h : closeSearch f (p.take k) = some (q, ml)) :
    lsAt true p q ∧ q + 3 ≤ k ∧ ∃ mlp, closeAt f (p.drop q) = some mlp := by
  obtain ⟨hls, hat, hmin⟩ := closeSearch_spec h
  rw [List.drop_take] at hat
  have h3 := (closeAt_elim hat).1
  have hrun := runLen_le f ((p.drop q).take (k - q))
  simp only [List.length_take, List.length_drop] at hrun
  have hk3 : q + 3 ≤ k := by omega
  obtain ⟨mlp, hmlp⟩ := closeAt_of_take hat
  exact ⟨(lsAt_take (by omega)).mp hls, hk3, mlp, hmlp⟩

/-! ### Inversion of the text-mode decision -/

theorem textStep_fence_para {p : List Char} {start ml : Nat} {c : Char}
    (h : textStep p = .fence start c ml) :
    ∀ i, findNlNl p = some i → start ≤ i := by
  intro i hi
  unfold textStep at h
  rw [hi] at h
  rcases h2 : openSearch p with _ | ⟨s2, c2, ml2⟩ <;> rw [h2] at h <;> simp_all
  split at h <;> simp_all

theorem textStep_of_parts {p : List Char} {i : Nat} (h1 : findNlNl p = some i)
    (h2 : openSearch p = none) : textStep p = .para i := by
  unfold textStep
  rw [h1, h2]

theorem textStep_stop_of_parts {p : List Char} (h1 : findNlNl p = none)
    (h2 : openSearch p = none) : textStep p = .stop := by
  unfold textStep
  rw [h1, h2]

theorem textStep_of_openAt0 {b : List Char} {c : Char} {ml : Nat}
    (h : openAt b = some (c, ml)) : textStep b = .fence 0 c ml := by
  unfold textStep
  rw [openSearch_at0 h]
  rcases hf : findNlNl b with _ | i
  · rfl
  · simp

/-! ### Fresh-parse evaluations -/

theorem textStep_nil : textStep [] = .stop := rfl

theorem feedLoopF_nil (fuel : Nat) (code : Option Char) :
    feedLoopF fuel [] code = ([], ⟨[], code⟩) := by
  match fuel with
  | 0 => rfl
  | fuel + 1 =>
    match code with
    | some c => rfl
    | none => rfl

theorem freshParse_stop {b : List Char} (hb : b ≠ []) (hts : textStep b = .stop) :
    (feed BBState.init b).2.code = none := by
  unfold feed
  rw [if_neg hb]
  simp [BBState.init, feedLoopF, hts]

theorem freshParse_para {b : List Char} {i : Nat} (hts : textStep b = .para i)
    (hlen : b.length = i + 2) : (feed BBState.init b).2.code = none := by
  unfold feed
  rw [if_neg (by intro hc; subst hc; simp at hlen)]
  have hnil : b.drop (i + 2) = [] := by
    apply List.drop_eq_nil_of_le
    omega
  simp only [BBState.init, List.nil_append]
  rw [hlen]
  simp [feedLoopF, hts, hnil, feedLoopF_nil, textStep_nil]

theorem freshParse_fence {b : List Char} {c : Char} {ml q2 ml2 : Nat}
    (hat : openAt b = some (c, ml))
    (hclose : closeSearch c (b.drop ml) = some (q2, ml2))
    (hlen : b.length = ml + q2 + ml2) : (feed BBState.init b).2.code = none := by
  have h3 := (openAt_elim hat).1
  have hbne : b ≠ [] := by
    intro hc
    subst hc
    simp [runLen] at h3
  unfold feed
  rw [if_neg hbne]
  simp only [BBState.init, List.nil_append]
  have hts := textStep_of_openAt0 hat
  have hnil : b.drop (ml + q2 + ml2) = [] := by
    apply List.drop_eq_nil_of_le
    omega
  simp [feedLoopF, hts, hclose, hnil, feedLoopF_nil, textStep_nil]

/-! ### Fence safety: every emitted block is fence-balanced, except blocks
that are themselves a closing-fence match (the bare-opening-fence corner
case). -/

/-- The block is itself one closing-fence match: it starts with a run of
some character `c` and `CLOSE_FENCE_FMT % c` matches the whole block.  This
happens when a bare opening fence line (no info string) is mistaken for its
own closing fence. -/
def SelfClose (b : List Char) : Prop :=
  ∃ c, b[0]? = some c ∧ closeAt c b = some b.length

theorem good_close0 {f : Char} {p : List Char} {ml : Nat}
    (hcl : closeAt f p = some ml) : SelfClose (p.take ml) := by
  have hb := closeAt_bounds hcl
  have h3 := (closeAt_elim hcl).1
  refine ⟨f, ?_, ?_⟩
  · rw [getP_take (by omega)]
    exact runLen_getElem f p 0 (by omega)
  · have hlen : (p.take ml).length = ml := by
      simp only [List.length_take]
      omega
    rw [hlen]
    exact closeAt_take_exact hcl

theorem good_fence_block {p2 : List Char} {c : Char} {ml q2 ml2 : Nat}
    (hopen : openAt p2 = some (c, ml))
    (hcs : closeSearch c (p2.drop ml) = some (q2, ml2)) :
    (feed BBState.init (p2.take (ml + q2 + ml2))).2.code = none := by
  have hob := openAt_elim hopen
  have hmllen : ml ≤ p2.length := by
    have := firstNl_lt hob.2.2.1
    omega
  have hcb := closeSearch_bounds hcs
  simp only [List.length_drop] at hcb
  have hlen : (p2.take (ml + q2 + ml2)).length = ml + q2 + ml2 := by
    simp only [List.length_take]
    omega
  have hbat : openAt (p2.take (ml + q2 + ml2)) = some (c, ml) :=
    openAt_take hopen (by omega)
  have hbclose : closeSearch c ((p2.take (ml + q2 + ml2)).drop ml) = some (q2, ml2) := by
    rw [List.drop_take]
    have heq : ml + q2 + ml2 - ml = q2 + ml2 := by omega
    rw [heq]
    exact closeSearch_take_exact hcs
  exact freshParse_fence hbat hbclose hlen

theorem good_close_pos {p : List Char} {c : Char} {mlo q ml : Nat}
    (hopen : openAt p = some (c, mlo)) (hcs : closeSearch c p = some (q, ml))
    (hq : 0 < q) : (feed BBState.init (p.take (q + ml))).2.code = none := by
  have hob := openAt_elim hopen
  have hnl := openAt_nl hopen
  have hlsq := (closeSearch_spec hcs).1
  have hmloq : mlo ≤ q := by
    by_contra hlt
    unfold lsAt at hlsq
    rw [if_neg (by omega)] at hlsq
    exact hnl.2 (q - 1) (by omega) hlsq
  have hlsmlo : lsAt true p mlo := by
    unfold lsAt
    rw [if_neg (by omega)]
    exact hnl.1
  have hdrop := closeSearch_drop hlsmlo hcs hmloq
  have hgood := good_fence_block hopen hdrop
  have heq : mlo + (q - mlo) + ml = q + ml := by omega
  rw [heq] at hgood
  exact hgood

theorem textStep_para_open {p : List Char} {i : Nat} (h : textStep p = .para i) :
    openSearch p = none ∨ ∃ s c m, openSearch p = some (s, c, m) ∧ i < s := by
  unfold textStep at h
  rcases h1 : findNlNl p with _ | j <;> rcases h2 : openSearch p with _ | ⟨s, c, m⟩ <;>
    rw [h1, h2] at h <;> dsimp only at h
  · simp at h
  · simp at h
  · exact Or.inl rfl
  · split at h
    · next hcond =>
      simp only [TextStep.para.injEq] at h
      exact Or.inr ⟨s, c, m, rfl, by omega⟩
    · simp at h

theorem good_para_block {p : List Char} {i : Nat} (hts : textStep p = .para i) :
    (feed BBState.init (p.take (i + 2))).2.code = none := by
  obtain ⟨hfind, hle⟩ := textStep_para hts
  have hfb : findNlNl (p.take (i + 2)) = some i := findNlNl_take_exact hfind
  have hob : openSearch (p.take (i + 2)) = none := by
    rcases ho : openSearch (p.take (i + 2)) with _ | ⟨q, c, ml⟩
    · rfl
    · exfalso
      obtain ⟨hls, hk3, mlp, hmlp⟩ := openSearch_take_some ho
      rcases textStep_para_open hts with hnone | ⟨s, c2, m2, hsome, his⟩
      · rw [openSearch_noneSpec hnone q hls] at hmlp
        simp at hmlp
      · rw [(openSearch_spec hsome).2.2 q (by omega) hls] at hmlp
        simp at hmlp
  have hts2 : textStep (p.take (i + 2)) = .para i := textStep_of_parts hfb hob
  refine freshParse_para hts2 ?_
  simp only [List.length_take]
  omega

theorem good_lead_block {p : List Char} {start ml : Nat} {c : Char}
    (hts : textStep p = .fence start c ml) (hpos : 0 < start) :
    (feed BBState.init (p.take start)).2.code = none := by
  have hos := textStep_fence hts
  have hob := openSearch_bounds hos
  have hspec := openSearch_spec hos
  have hlen : (p.take start).length = start := by
    simp only [List.length_take]
    omega
  have hopenb : openSearch (p.take start) = none := by
    rcases ho : openSearch (p.take start) with _ | ⟨q, c2, ml2⟩
    · rfl
    · exfalso
      obtain ⟨hls, hk3, mlp, hmlp⟩ := openSearch_take_some ho
      rw [hspec.2.2 q (by omega) hls] at hmlp
      simp at hmlp
  have hfindb : findNlNl (p.take start) = none := by
    rcases hf : findNlNl (p.take start) with _ | j
    · rfl
    · exfalso
      have hjb := findNlNl_le hf
      rw [hlen] at hjb
      obtain ⟨hj1, hj2, _⟩ := findNlNl_spec hf
      rw [getP_take (by omega)] at hj1
      rw [getP_take (by omega)] at hj2
      obtain ⟨i2, hi2, hi2le⟩ := findNlNl_intro hj1 hj2
      have := textStep_fence_para hts i2 hi2
      omega
  have hts2 := textStep_stop_of_parts hfindb hopenb
  refine freshParse_stop ?_ hts2
  intro hc
  rw [hc] at hlen
  simp at hlen
  omega

/-- The state invariant maintained by `feed`: whenever the buffer is inside
a fenced code block, `pending` still starts with the opening-fence line
whose fence character is the one compiled into `_close_re`. -/
def INVp (p : List Char) (code : Option Char) : Prop :=
  ∀ c, code = some c → ∃ ml, openAt p = some (c, ml)

theorem feedLoopF_good :
    ∀ (fuel : Nat) (p : List Char) (code : Option Char), p.length < fuel →
      INVp p code →
      (∀ b ∈ (feedLoopF fuel p code).1,
          (feed BBState.init b).2.code = none ∨ SelfClose b) ∧
        INVp (feedLoopF fuel p code).2.pending (feedLoopF fuel p code).2.code := by
  intro fuel
  induction fuel with
  | zero => intro p code h; omega
  | succ fuel ih =>
    intro p code h hinv
    match code with
    | some c =>
      obtain ⟨mlo, hmlo⟩ := hinv c rfl
      rcases hcs : closeSearch c p with _ | ⟨q, ml⟩
      · simp only [feedLoopF, hcs]
        refine ⟨by simp, ?_⟩
        intro c2 hc2
        simp only [Option.some.injEq] at hc2
        exact ⟨mlo, hc2 ▸ hmlo⟩
      · have hb := closeSearch_bounds hcs
        simp only [feedLoopF, hcs]
        have hrec := ih (p.drop (q + ml)) none (by simp; omega)
          (fun c2 hc2 => nomatch hc2)
        constructor
        · intro b hbmem
          simp only [List.mem_cons] at hbmem
          rcases hbmem with rfl | hbm
          · rcases Nat.eq_zero_or_pos q with hq0 | hqpos
            · subst hq0
              right
              have hcl : closeAt c p = some ml := by
                have := (closeSearch_spec hcs).2.1
                simpa using this
              simpa using good_close0 hcl
            · exact Or.inl (good_close_pos hmlo hcs hqpos)
          · exact hrec.1 b hbm
        · exact hrec.2
    | none =>
      rcases hts : textStep p with i | ⟨start, c, ml⟩ | _
      · have hp := textStep_para hts
        simp only [feedLoopF, hts]
        have hrec := ih (p.drop (i + 2)) none (by simp; omega)
          (fun c2 hc2 => nomatch hc2)
        constructor
        · intro b hbmem
          simp only [List.mem_cons] at hbmem
          rcases hbmem with rfl | hbm
          · exact Or.inl (good_para_block hts)
          · exact hrec.1 b hbm
        · exact hrec.2
      · have hos := textStep_fence hts
        have hob := openSearch_bounds hos
        have hdropat := openSearch_drop hos
        rcases hcs : closeSearch c ((p.drop start).drop ml) with _ | ⟨q2, ml2⟩
        · simp only [feedLoopF, hts, hcs]
          constructor
          · intro b hbmem
            rcases Nat.eq_zero_or_pos start with h0 | hpos
            · rw [if_pos h0] at hbmem
              simp at hbmem
            · rw [if_neg (by omega)] at hbmem
              simp only [List.mem_singleton] at hbmem
              subst hbmem
              exact Or.inl (good_lead_block hts hpos)
          · intro c2 hc2
            simp only [Option.some.injEq] at hc2
            exact ⟨ml, hc2 ▸ hdropat⟩
        · have hb2 := closeSearch_bounds hcs
          simp only [List.length_drop] at hb2
          simp only [feedLoopF, hts, hcs]
          have hrec := ih ((p.drop start).drop (ml + q2 + ml2)) none
            (by simp; omega) (fun c2 hc2 => nomatch hc2)
          constructor
          · intro b hbmem
            simp only [List.mem_append, List.mem_cons] at hbmem
            rcases hbmem with hlead | rfl | hbm
            · rcases Nat.eq_zero_or_pos start with h0 | hpos
              · rw [if_pos h0] at hlead
                simp at hlead
              · rw [if_neg (by omega)] at hlead
                simp only [List.mem_singleton] at hlead
                subst hlead
                exact Or.inl (good_lead_block hts hpos)
            · exact Or.inl (good_fence_block hdropat hcs)
            · exact hrec.1 b hbm
          · exact hrec.2
      · simp only [feedLoopF, hts]
        exact ⟨by simp, hinv⟩

theorem feed_good (st : BBState) (t : List Char) (hinv : INVp st.pending st.code) :
    (∀ b ∈ (feed st t).1,
        (feed BBState.init b).2.code = none ∨ SelfClose b) ∧
      INVp (feed st t).2.pending (feed st t).2.code := by
  unfold feed
  split
  · exact ⟨by simp, hinv⟩
  · apply feedLoopF_good
    · simp
    · intro c hc
      obtain ⟨ml, hml⟩ := hinv c hc
      exact ⟨ml, openAt_append hml t⟩

theorem runFeeds_good (ts : List (List Char)) :
    (∀ b ∈ (runFeeds ts).1,
        (feed BBState.init b).2.code = none ∨ SelfClose b) ∧
      INVp (runFeeds ts).2.pending (runFeeds ts).2.code := by
  suffices h : ∀ (acc : List (List Char)) (st : BBState),
      (∀ b ∈ acc, (feed BBState.init b).2.code = none ∨ SelfClose b) →
      INVp st.pending st.code →
      (∀ b ∈ (ts.foldl (fun acc t => let r := feed acc.2 t; (acc.1 ++ r.1, r.2)) (acc, st)).1,
          (feed BBState.init b).2.code = none ∨ SelfClose b) ∧
        INVp (ts.foldl (fun acc t => let r := feed acc.2 t; (acc.1 ++ r.1, r.2)) (acc, st)).2.pending
          (ts.foldl (fun acc t => let r := feed acc.2 t; (acc.1 ++ r.1, r.2)) (acc, st)).2.code by
    exact h [] BBState.init (by simp) (fun c hc => nomatch hc)
  induction ts with
  | nil => intro acc st hacc hinv; exact ⟨hacc, hinv⟩
  | cons t ts ih =>
    intro acc st hacc hinv
    have hfg := feed_good st t hinv
    simp only [List.foldl_cons]
    apply ih
    · intro b hb
      rw [List.mem_append] at hb
      rcases hb with hb | hb
      · exact hacc b hb
      · exact hfg.1 b hb
    · exact hfg.2

/-! ### Claim-level theorems for the segmenter -/

/-- A line-start closing-fence run in `p` for fence character `c`: a run of
at least three `c` at a line start, followed by whitespace that contains a
newline (the `\s*$\n` tail of `CLOSE_FENCE_FMT`).  The length of the run is
not constrained beyond `≥ 3`. -/
def HasCloseRun (c : Char) (p : List Char) : Prop :=
  ∃ k, lsAt true p k ∧ 3 ≤ runLen c (p.drop k) ∧
    ∃ j : Nat, (((p.drop k).drop (runLen c (p.drop k))).takeWhile isPyWs)[j]? = some '\n'

theorem closeAt_some_iff {f : Char} {s : List Char} :
    (∃ m, closeAt f s = some m) ↔
      (3 ≤ runLen f s ∧
        ∃ j : Nat, ((s.drop (runLen f s)).takeWhile isPyWs)[j]? = some '\n') := by
  constructor
  · rintro ⟨m, hm⟩
    obtain ⟨h3, p, hw, _⟩ := closeAt_elim hm
    exact ⟨h3, p, (lastNl_spec hw).1⟩
  · rintro ⟨h3, j, hj⟩
    obtain ⟨m, hm, _⟩ := lastNl_intro hj
    exact ⟨runLen f s + m + 1, closeAt_intro h3 hm⟩

theorem closeSearch_some_iff {f : Char} {p : List Char} :
    (∃ q ml, closeSearch f p = some (q, ml)) ↔ HasCloseRun f p := by
  constructor
  · rintro ⟨q, ml, h⟩
    obtain ⟨hls, hat, _⟩ := closeSearch_spec h
    obtain ⟨h3, hj⟩ := closeAt_some_iff.mp ⟨ml, hat⟩
    exact ⟨q, hls, h3, hj⟩
  · rintro ⟨k, hls, h3, j, hj⟩
    obtain ⟨m, hm⟩ := closeAt_some_iff.mpr ⟨h3, j, hj⟩
    rcases hcs : closeSearch f p with _ | ⟨q, ml⟩
    · rw [closeSearch_noneSpec hcs k hls] at hm
      exact absurd hm (by simp)
    · exact ⟨q, ml, rfl⟩

/-- C2 counterexample (closed).  Feeding `"```\n"` and then `"x\n"`: the
second call returns the block `"```\n"`, which contains an opening fence
(`OPEN_FENCE_RE` matches it at position 0) with no closing fence after it
(no close match in the rest of the block), and which, re-parsed by a fresh
segmenter, leaves it inside an open fence — an unbalanced opening fence
without its matching close, refuting the unrestricted fence-safety claim. -/
theorem fenceSafety_counterexample :
    (runFeeds ["```\n".toList, "x\n".toList]).1 = ["```\n".toList] ∧
      openSearch ("```\n".toList) = some (0, btick, 4) ∧
      closeSearch btick (("```\n".toList).drop 4) = none ∧
      (feed BBState.init ("```\n".toList)).2.code = some btick := by
  refine ⟨by decide, by decide, by decide, by decide⟩

/-- C2 (corrected, amended).  Fence safety of the segmenter, amended: the
concrete scenario holds verbatim — feeding `"```python\nprint(1)\n"` then
`"```\n"` yields no block after the first call and exactly one block
`"```python\nprint(1)\n```\n"` after the second — and in general every
block returned by `feed`, re-parsed from a fresh segmenter state, ends
outside any code fence (no unbalanced opening fence), except that a block
may itself be a single closing-fence match (`SelfClose`), which arises when
a bare opening fence line is taken for its own close (the counterexample
shows this exception is necessary). -/
theorem fenceSafety_amended :
    (feed BBState.init ("```python\nprint(1)\n".toList)).1 = [] ∧
      (feed (feed BBState.init ("```python\nprint(1)\n".toList)).2 ("```\n".toList)).1 =
        ["```python\nprint(1)\n```\n".toList] ∧
      ∀ (ts : List (List Char)) (b : List Char), b ∈ (runFeeds ts).1 →
        (feed BBState.init b).2.code = none ∨ SelfClose b := by
  refine ⟨by decide, by decide, ?_⟩
  intro ts b hb
  exact (runFeeds_good ts).1 b hb

/-- Witness for the fence-safety theorem at a concrete input: the block
`"x\n\n"` emitted while feeding `"x\n\ny"` is fence-balanced. -/
theorem fenceSafety_witness :
    (feed BBState.init ("x\n\n".toList)).2.code = none ∨ SelfClose ("x\n\n".toList) :=
  fenceSafety_amended.2.2 ["x\n\ny".toList] ("x\n\n".toList) (by decide)

/-- C5 counterexample (closed).  A fence opened with five backticks
(`openSearch` finds the opening-fence line of run length 5) is closed by a
line-start run of only three backticks: the single feed emits the whole
block and leaves the buffer out of code mode, refuting "a shorter run of c
at line start does not close the block". -/
theorem closingFence_counterexample :
    runFeeds ["`````\nx\n```\n".toList] =
        (["`````\nx\n```\n".toList], BBState.init) ∧
      openSearch ("`````\nx\n```\n".toList) = some (0, btick, 6) ∧
      runLen btick ("`````\nx\n```\n".toList) = 5 ∧
      runLen btick (("`````\nx\n```\n".toList).drop 8) = 3 := by
  refine ⟨by decide, by decide, by decide, by decide⟩

/-- C5 (corrected, amended).  Closing-fence rule, amended: while the
segmenter is inside a fenced code block whose fence character is `c`, a
nonempty feed completes a block exactly when the buffered text contains a
line-start run of the same character `c` of length at least three followed
by whitespace containing a newline — the compiled close pattern is
`^(?:c{3,})\s*$\n`, which does not consult the opening fence's length `n`,
so a same-character run shorter than `n` (but `≥ 3`) also closes the
block. -/
theorem closingFence_amended (st : BBState) (t : List Char) (c : Char)
    (hcode : st.code = some c) (ht : ¬t = []) :
    (feed st t).1 ≠ [] ↔ HasCloseRun c (st.pending ++ t) := by
  unfold feed
  rw [if_neg ht, hcode]
  rcases hcs : closeSearch c (st.pending ++ t) with _ | ⟨q, ml⟩
  · simp only [feedLoopF, hcs]
    apply iff_of_false
    · simp
    · intro hrun
      obtain ⟨q, ml, hsome⟩ := closeSearch_some_iff.mpr hrun
      rw [hcs] at hsome
      exact absurd hsome (by simp)
  · simp only [feedLoopF, hcs]
    apply iff_of_true
    · simp
    · exact closeSearch_some_iff.mp ⟨q, ml, hcs⟩

/-- Witness for the amended closing-fence rule at a concrete input: inside
a five-backtick fence, feeding `"x\n```\n"` completes a block, and the
buffered text indeed has a line-start three-backtick close run. -/
theorem closingFence_witness :
    (feed ⟨"`````\n".toList, some btick⟩ ("x\n```\n".toList)).1 ≠ [] ↔
      HasCloseRun btick ("`````\n".toList ++ "x\n```\n".toList) :=
  closingFence_amended ⟨"`````\n".toList, some btick⟩ ("x\n```\n".toList) btick rfl
    (by decide)

/-- C1 (confirmed).  Block segmenter round trip: for every sequence of
`feed(text)` calls followed by one `flush_remaining()` call at stream end,
the concatenation of all blocks returned by the `feed` calls, followed by
the string returned by `flush_remaining` (empty when it returns none), is
exactly the concatenation of all fed text — no character is lost and none
is duplicated. -/
theorem blockBuffer_roundTrip (ts : List (List Char)) :
    (runFeeds ts).1.flatten ++ ((flushRemaining (runFeeds ts).2).1.getD []) = ts.flatten := by
  have h := runFeeds_concat ts
  unfold flushRemaining
  split <;> simp_all

/-! ### Live renderer (`render/markdown_live.py`): stability logic of
`MarkdownStream.update`.

Rendering (`_render_md_lines`) and wall-clock time are external effects:
each call to `update` is modelled with the rendered line list `lines`, the
current time `now` and the render duration `renderTime` as oracle inputs
(times as rationals).  The `live` widget only affects terminal output, not
the fields tracked here, and `_ensure_live` guarantees it exists, so the
`if self.live:` guard around the print is always taken. -/

/-- The fields of the `MarkdownStream` dataclass that `update` reads or
writes. -/
structure MSState where
  when : ℚ
  min_delay : ℚ
  printed : List String
  last_rendered : List String
  waiting_active : Bool

/-- The two common-prefix `while` loops of `update` (both walk from index 0
up to the length of the shorter list, counting equal lines). -/
def lcp : List String → List String → Nat
  | x :: xs, y :: ys => if x = y then lcp xs ys + 1 else 0
  | _, _ => 0

/-- `MarkdownStream.update(cumulative_text, final)`: state effect.
Mirrors the source order: throttle check (old `when`/`min_delay`), then
`when = now`, render, `min_delay` update, `target_stable`, the two-frame
confirmation `lcp_prev`, the printed-prefix check `common`,
`effective_stable`, the waiting-indicator handling (`stop_waiting` resets
`when` to 0), the early return while waiting with no content, the guarded
extension of `printed`, and finally `last_rendered = lines`. -/
def MSState.update (st : MSState) (now : ℚ) (lines : List String)
    (renderTime : ℚ) (final : Bool) : MSState :=
  if ¬final ∧ now - st.when < st.min_delay then st
  else
    let st1 : MSState := { st with when := now }
    let st2 : MSState := { st1 with min_delay := min (max (renderTime * 10) (1 / 20)) 2 }
    let total := lines.length
    let target_stable := if 3 < total then (if final then total else total - 2)
      else (if final then total else 0)
    let lcp_prev := if st2.last_rendered ≠ [] then lcp st2.last_rendered lines else 0
    let already := st2.printed.length
    let common := lcp st2.printed lines
    let effective_stable0 := if final then total else min target_stable lcp_prev
    let effective_stable := if common < already then common else effective_stable0
    let st3 : MSState := if st2.waiting_active ∧ 0 < total then
      { st2 with waiting_active := false, when := 0 } else st2
    if st3.waiting_active ∧ total = 0 ∧ ¬final then st3
    else
      let need := effective_stable - already
      let st4 : MSState := if (final ∨ 0 < effective_stable) ∧ 0 < need then
        { st3 with printed := lines.take effective_stable } else st3
      { st4 with last_rendered := lines }

/-- Fold a sequence of `update` calls (each with its oracle inputs) over a
state. -/
def MSState.applyUpdates (st : MSState) : List (ℚ × List String × ℚ × Bool) → MSState
  | [] => st
  | (now, lines, renderTime, final) :: rest =>
    MSState.applyUpdates (MSState.update st now lines renderTime final) rest

theorem lcp_ge_length_eq_take :
    ∀ (a b : List String), a.length ≤ lcp a b → a = b.take a.length := by
  intro a
  induction a with
  | nil => intro b h; simp
  | cons x xs ih =>
    intro b h
    match b with
    | [] => simp [lcp] at h
    | y :: ys =>
      simp only [lcp, List.length_cons] at h
      split at h
      · next hxy =>
        subst hxy
        simp only [List.length_cons, List.take_succ_cons, List.cons.injEq]
        exact ⟨trivial, ih ys (by omega)⟩
      · simp at h

/-- C3 (confirmed).  Renderer append-only invariant: for every sequence of
`MarkdownStream.update` calls on one instance, the `printed` line list
after any call has the `printed` list from before that call as a prefix —
lines once appended to `printed` are never altered or removed, only
followed by new lines.  Stated both per call (for every state, so for
every reachable state) and for whole call sequences. -/
theorem renderer_append_only :
    (∀ (st : MSState) (now : ℚ) (lines : List String) (renderTime : ℚ) (final : Bool),
        st.printed <+: (MSState.update st now lines renderTime final).printed) ∧
      ∀ (st : MSState) (calls : List (ℚ × List String × ℚ × Bool)),
        st.printed <+: (MSState.applyUpdates st calls).printed := by
  have htake : ∀ (P lines : List String) (eff : Nat), P.length ≤ lcp P lines →
      P.length ≤ eff → P <+: lines.take eff := by
    intro P lines eff h1 h2
    have heq := lcp_ge_length_eq_take P lines h1
    rw [heq]
    rw [show lines.take P.length = (lines.take eff).take P.length by
      rw [List.take_take]
      congr 1
      omega]
    exact List.take_prefix _ _
  have hstep : ∀ (st : MSState) (now : ℚ) (lines : List String) (renderTime : ℚ)
      (final : Bool), st.printed <+: (MSState.update st now lines renderTime final).printed := by
    intro st now lines renderTime final
    unfold MSState.update
    dsimp only
    by_cases hcl : lcp st.printed lines < st.printed.length
    · rw [if_pos hcl]
      repeat' split
      all_goals try exact List.prefix_refl _
      all_goals rename_i hcond
      all_goals obtain ⟨h1, h2⟩ := hcond
      all_goals exfalso
      all_goals omega
    · rw [if_neg hcl]
      repeat' split
      all_goals try exact List.prefix_refl _
      all_goals rename_i hcond
      all_goals obtain ⟨h1, h2⟩ := hcond
      all_goals apply htake
      all_goals omega
  refine ⟨hstep, ?_⟩
  intro st calls
  induction calls generalizing st with
  | nil => exact List.prefix_refl _
  | cons c rest ih =>
    obtain ⟨now, lines, renderTime, final⟩ := c
    exact (hstep st now lines renderTime final).trans
      (ih (MSState.update st now lines renderTime final))

/-! ### JSON values (`json.loads` / `json.dumps` as used by the client)

`streaming_client.py` parses tool-start payloads and accumulated tool-input
buffers with `json.loads`, and the mappers serialise tool info with
`json.dumps`.  JSON values are modelled by the inductive `J` (numbers
restricted to integers, which covers every value these claims exercise) and
`json.loads` by a recursive-descent parser over the character list (string
escapes limited to the common single-character ones; `JSONDecodeError`
is `none`). -/

inductive J where
  | null
  | bool (b : Bool)
  | num (n : Int)
  | str (s : String)
  | arr (xs : List J)
  | obj (kvs : List (String × J))
  deriving Repr

/-- Python dict truthiness of a JSON value (`if current_tool:` etc.):
`None`, `False`, `0`, `""`, `[]` and `{}` are falsy. -/
def jTruthy : J → Bool
  | .null => false
  | .bool b => b
  | .num n => n != 0
  | .str s => s != ""
  | .arr xs => !xs.isEmpty
  | .obj kvs => !kvs.isEmpty

/-- `dict.get(k)` (first binding wins; parsed objects keep one binding per
key). -/
def jGet (kvs : List (String × J)) (k : String) : Option J :=
  match kvs.find? (fun kv => kv.1 = k) with
  | some kv => some kv.2
  | none => none

/-- JSON whitespace accepted between tokens by `json.loads`. -/
def isJsonWs (c : Char) : Bool := c = ' ' || c = '\t' || c = '\n' || c = '\r'

def skipWs (s : List Char) : List Char := s.dropWhile isJsonWs

/-- Body of a JSON string literal after the opening quote: returns the
decoded characters (reversed accumulator) and the remainder after the
closing quote. -/
def parseStrAux : List Char → List Char → Option (List Char × List Char)
  | acc, '"' :: r => some (acc.reverse, r)
  | acc, '\\' :: e :: r =>
    match e with
    | '"' => parseStrAux ('"' :: acc) r
    | '\\' => parseStrAux ('\\' :: acc) r
    | '/' => parseStrAux ('/' :: acc) r
    | 'n' => parseStrAux ('\n' :: acc) r
    | 't' => parseStrAux ('\t' :: acc) r
    | 'r' => parseStrAux ('\r' :: acc) r
    | _ => none
  | acc, c :: r => parseStrAux (c :: acc) r
  | _, [] => none

def natOfDigits (l : List Char) : Nat :=
  l.foldl (fun a c => a * 10 + (c.toNat - 48)) 0

mutual

/-- `json.loads`, value parser (expects leading whitespace skipped). -/
def parseJ : Nat → List Char → Option (J × List Char)
  | 0, _ => none
  | _ + 1, 'n' :: 'u' :: 'l' :: 'l' :: r => some (.null, r)
  | _ + 1, 't' :: 'r' :: 'u' :: 'e' :: r => some (.bool true, r)
  | _ + 1, 'f' :: 'a' :: 'l' :: 's' :: 'e' :: r => some (.bool false, r)
  | _ + 1, '"' :: r =>
    match parseStrAux [] r with
    | some (cs, r2) => some (.str (String.mk cs), r2)
    | none => none
  | fuel + 1, '[' :: r =>
    match skipWs r with
    | ']' :: r2 => some (.arr [], r2)
    | r2 => parseArrItems fuel r2 []
  | fuel + 1, '{' :: r =>
    match skipWs r with
    | '}' :: r2 => some (.obj [], r2)
    | r2 => parseObjItems fuel r2 []
  | _ + 1, '-' :: r =>
    let ds := r.takeWhile Char.isDigit
    if ds.isEmpty then none
    else some (.num (-(natOfDigits ds : Int)), r.drop ds.length)
  | _ + 1, c :: r =>
    if c.isDigit then
      let ds := (c :: r).takeWhile Char.isDigit
      some (.num (natOfDigits ds : Int), (c :: r).drop ds.length)
    else none
  | _ + 1, [] => none

def parseArrItems : Nat → List Char → List J → Option (J × List Char)
  | 0, _, _ => none
  | fuel + 1, s, acc =>
    match parseJ fuel s with
    | some (v, r) =>
      match skipWs r with
      | ',' :: r2 => parseArrItems fuel (skipWs r2) (v :: acc)
      | ']' :: r2 => some (.arr (v :: acc).reverse, r2)
      | _ => none
    | none => none

def parseObjItems : Nat → List Char → List (String × J) → Option (J × List Char)
  | 0, _, _ => none
  | fuel + 1, s, acc =>
    match s with
    | '"' :: r =>
      match parseStrAux [] r with
      | some (kcs, r2) =>
        match skipWs r2 with
        | ':' :: r3 =>
          match parseJ fuel (skipWs r3) with
          | some (v, r4) =>
            match skipWs r4 with
            | ',' :: r5 => parseObjItems fuel (skipWs r5) ((String.mk kcs, v) :: acc)
            | '}' :: r5 => some (.obj ((String.mk kcs, v) :: acc).reverse, r5)
            | _ => none
          | none => none
        | _ => none
      | none => none
    | _ => none

end

/-- `json.loads(s)`: parse the whole string (trailing non-whitespace is an
error). -/
def pyJsonParse (s : String) : Option J :=
  match parseJ (s.length + 1) (skipWs s.toList) with
  | some (v, rest) => if skipWs rest = [] then some v else none
  | none => none

/-- Escape a string for `json.dumps` (quotes and backslashes; the ids and
names that flow through here contain nothing else that needs escaping). -/
def jsonEscape (s : String) : String :=
  String.mk (s.toList.foldr
    (fun c acc =>
      if c = '"' then '\\' :: '"' :: acc
      else if c = '\\' then '\\' :: '\\' :: acc
      else c :: acc) [])

/-- `json.dumps({"id": id, "name": name})` as emitted by both mappers for
`tool_start` events (default separators). -/
def dumpsToolInfo (id name : Option String) : String :=
  let f : Option String → String := fun v =>
    match v with
    | some s => "\"" ++ jsonEscape s ++ "\""
    | none => "null"
  "\x7b\"id\": " ++ f id ++ ", \"name\": " ++ f name ++ "\x7d"

example : pyJsonParse (dumpsToolInfo (some "t1") (some "calc")) =
    some (.obj [("id", .str "t1"), ("name", .str "calc")]) := by rfl

example : pyJsonParse "\x7b\"x\":1\x7d" = some (.obj [("x", .num 1)]) := by rfl

/-! ### `StreamingClient.send_message` (`streaming_client.py`)

The event source (`_stream_events` over the provider mapper and the HTTP
line iterator) is modelled as the list of events it yields followed by an
optional exception raised when iterating past them; `send_message` consumes
the events lazily, so events after an early return are never seen and a
trailing exception only fires if the loop reaches it.  `self._abort` is
reset to `False` on entry and nothing in a single-threaded run sets it, so
the abort branch is never taken and `aborted` is always `False` here.
Exceptions raised while processing an event (a `ValueError` from
`float(parts[3])`, a `KeyError` from `result['content']`, an
`AttributeError` from `.get` on a non-dict `current_tool`) propagate to the
same `except` chain; interpreter-generated message texts are approximated. -/

structure StreamEvent where
  kind : String
  value : Option String
  deriving Repr, DecidableEq

/-- The exception classes distinguished by `send_message`'s `except` chain
(`ReadTimeout`/`ConnectTimeout` before their superclass `RequestException`,
then `Exception`), each carrying its message text. -/
inductive PyExn where
  | readTimeout (m : String)
  | connectTimeout (m : String)
  | requestException (m : String)
  | other (m : String)
  deriving Repr, DecidableEq

/-- Exact-rational model of a Python float value: a numerator over a
positive denominator, kept unnormalised so that every operation is plain
integer arithmetic (the binary-float rounding of the Python original is
not modelled; the decimal arithmetic here is exact). -/
structure PyFloat where
  num : Int
  den : Int
  deriving Repr, DecidableEq

instance : Add PyFloat := ⟨fun a b => ⟨a.num * b.den + b.num * a.den, a.den * b.den⟩⟩

instance : Mul PyFloat := ⟨fun a b => ⟨a.num * b.num, a.den * b.den⟩⟩

instance : Div PyFloat := ⟨fun a b => ⟨a.num * b.den, a.den * b.num⟩⟩

instance (n : Nat) : OfNat PyFloat n := ⟨⟨(n : Int), 1⟩⟩

instance : NatCast PyFloat := ⟨fun n => ⟨(n : Int), 1⟩⟩

structure StreamResult where
  text : String
  tokens : Nat
  cost : PyFloat
  tool_calls : List J
  model_name : Option String
  aborted : Bool
  error : Option String
  deriving Repr

/-- The accumulator variables of `send_message`'s loop. -/
structure SMState where
  textBuffer : List String
  model_name : Option String
  tool_calls : List J
  currentTool : Option J
  toolInputBuffer : String
  deriving Repr

def SMState.init : SMState := ⟨[], none, [], none, ""⟩

/-- `event.value or model_name`. -/
def pyOrStr (v : Option String) (old : Option String) : Option String :=
  match v with
  | some s => if s ≠ "" then some s else old
  | none => old

/-- `str.split("|")`. -/
def splitPipe : List Char → List (List Char)
  | [] => [[]]
  | c :: r =>
    match splitPipe r with
    | [] => [[c]]
    | h :: t => if c = '|' then [] :: h :: t else (c :: h) :: t

/-- `parts[0].lstrip("~")` (removes every leading tilde). -/
def tildeStrip (l : List Char) : List Char := l.dropWhile (· = '~')

/-- `str.isdigit()` (ASCII digits; nonempty). -/
def pyIsDigit (l : List Char) : Bool := !l.isEmpty && l.all Char.isDigit

/-- `float(s)` on decimal literals: optional surrounding whitespace, sign,
digits with optional fraction, optional exponent; anything else raises
`ValueError` (`none`). -/
def parseDecimal (s : String) : Option PyFloat :=
  let l := ((s.toList.dropWhile isPyWs).reverse.dropWhile isPyWs).reverse
  let (sign, l1) : Int × List Char :=
    match l with
    | '-' :: r => (-1, r)
    | '+' :: r => (1, r)
    | _ => (1, l)
  let ds := l1.takeWhile Char.isDigit
  let l2 := l1.drop ds.length
  let (fs, l3) : List Char × List Char :=
    match l2 with
    | '.' :: r => (r.takeWhile Char.isDigit, r.drop (r.takeWhile Char.isDigit).length)
    | _ => ([], l2)
  if ds.isEmpty ∧ fs.isEmpty then none
  else
    let mant : PyFloat :=
      ⟨sign * ((natOfDigits ds * 10 ^ fs.length + natOfDigits fs : Nat) : Int),
        ((10 ^ fs.length : Nat) : Int)⟩
    match l3 with
    | [] => some mant
    | 'e' :: r => parseExpPart mant r
    | 'E' :: r => parseExpPart mant r
    | _ => none
where
  parseExpPart (q : PyFloat) (r : List Char) : Option PyFloat :=
    let (neg, r1) : Bool × List Char :=
      match r with
      | '-' :: r2 => (true, r2)
      | '+' :: r2 => (false, r2)
      | _ => (false, r)
    let es := r1.takeWhile Char.isDigit
    if es.isEmpty ∨ ¬(r1.drop es.length).isEmpty then none
    else some (if neg then q / ((10 ^ natOfDigits es : Nat) : PyFloat)
      else q * ((10 ^ natOfDigits es : Nat) : PyFloat))

def finalResult (s : SMState) : StreamResult :=
  ⟨String.join s.textBuffer, 0, 0, s.tool_calls, s.model_name, false, none⟩

/-- The three `except` branches of `send_message`. -/
def exnResult (e : PyExn) (s : SMState) : StreamResult :=
  match e with
  | .readTimeout m =>
    ⟨String.join s.textBuffer, 0, 0, s.tool_calls, s.model_name, false,
      some ("Request timed out: " ++ m)⟩
  | .connectTimeout m =>
    ⟨String.join s.textBuffer, 0, 0, s.tool_calls, s.model_name, false,
      some ("Request timed out: " ++ m)⟩
  | .requestException m =>
    ⟨String.join s.textBuffer, 0, 0, s.tool_calls, s.model_name, false,
      some ("Network error: " ++ m)⟩
  | .other m =>
    ⟨String.join s.textBuffer, 0, 0, s.tool_calls, s.model_name, false,
      some ("Unexpected error: " ++ m)⟩

/-- Outcome of one iteration of the event loop. -/
inductive StepOut where
  | cont (s : SMState)
  | ret (r : StreamResult)
  | brk
  | exn (e : PyExn)
  deriving Repr

/-- The `elif event.kind == "tokens":` branch of `send_message`'s loop. -/
def tokensStep (s : SMState) (value : Option String) : StepOut :=
  match value with
  | some v =>
    if v ≠ "" ∧ '|' ∈ v.toList then
      let parts := splitPipe v.toList
      if 4 ≤ parts.length then
        let total_str := tildeStrip (parts.headD [])
        let total := if pyIsDigit total_str then natOfDigits total_str else 0
        let costStr := (parts.get? 3).getD []
        match (if costStr.isEmpty then some (0 : PyFloat)
          else parseDecimal (String.mk costStr)) with
        | some cost =>
          .ret ⟨String.join s.textBuffer, total, cost, s.tool_calls, s.model_name,
            false, none⟩
        | none =>
          .exn (.other ("could not convert string to float: " ++ String.mk costStr))
      else
        .ret ⟨String.join s.textBuffer,
          (if pyIsDigit v.toList then natOfDigits v.toList else 0), 0,
          s.tool_calls, s.model_name, false, none⟩
    else
      .ret ⟨String.join s.textBuffer,
        (if v ≠ "" ∧ pyIsDigit v.toList then natOfDigits v.toList else 0), 0,
        s.tool_calls, s.model_name, false, none⟩
  | none =>
    .ret ⟨String.join s.textBuffer, 0, 0, s.tool_calls, s.model_name, false, none⟩

/-- One iteration of `send_message`'s `for event in ...` body.  `ex?` is
the configured tool executor (`self.tool_executor`), taking the tool name
and parsed input as JSON values and returning the result dict. -/
def smStep (ex? : Option (J → J → List (String × J))) (s : SMState)
    (ev : StreamEvent) : StepOut :=
  if ev.kind = "model" then
    .cont { s with model_name := pyOrStr ev.value s.model_name }
  else if ev.kind = "text" then
    .cont { s with textBuffer := s.textBuffer ++ [ev.value.getD ""] }
  else if ev.kind = "thinking" then
    .cont s
  else if ev.kind = "tool_start" then
    match ex?, ev.value with
    | some _, some v =>
      if v ≠ "" then
        match pyJsonParse v with
        | some j => .cont { s with currentTool := some j, toolInputBuffer := "" }
        | none => .cont s
      else .cont s
    | _, _ => .cont s
  else if ev.kind = "tool_input_delta" then
    match ev.value with
    | some v =>
      if v ≠ "" then .cont { s with toolInputBuffer := s.toolInputBuffer ++ v }
      else .cont s
    | none => .cont s
  else if ev.kind = "tool_ready" then
    match ex? with
    | some ex =>
      match s.currentTool with
      | some ct =>
        if jTruthy ct then
          match (if s.toolInputBuffer ≠ "" then pyJsonParse s.toolInputBuffer
            else some (.obj [])) with
          | none => .cont { s with currentTool := none }
          | some input =>
            match ct with
            | .obj kvs =>
              let toolName := (jGet kvs "name").getD .null
              let toolId := (jGet kvs "id").getD .null
              let result := ex toolName input
              match jGet result "content" with
              | some content =>
                .cont { s with
                  tool_calls := s.tool_calls ++
                    [J.obj [("tool_call", J.obj [("id", toolId), ("name", toolName),
                      ("input", input)]), ("result", content)]],
                  currentTool := none }
              | none => .exn (.other "'content'")
            | _ => .exn (.other "object has no attribute: get")
        else .cont s
      | none => .cont s
    | none => .cont s
  else if ev.kind = "tokens" then
    tokensStep s ev.value
  else if ev.kind = "done" then
    .brk
  else
    .cont s

def sendMessageGo (ex? : Option (J → J → List (String × J))) :
    SMState → List StreamEvent → Option PyExn → StreamResult
  | s, [], tail =>
    match tail with
    | some e => exnResult e s
    | none => finalResult s
  | s, ev :: rest, tail =>
    match smStep ex? s ev with
    | .cont s2 => sendMessageGo ex? s2 rest tail
    | .ret r => r
    | .brk => finalResult s
    | .exn e => exnResult e s

/-- `StreamingClient.send_message`, over the events yielded by the mapped
stream and the optional exception that iterating past them raises. -/
def sendMessage (ex? : Option (J → J → List (String × J)))
    (events : List StreamEvent) (tail : Option PyExn) : StreamResult :=
  sendMessageGo ex? SMState.init events tail

/-! ### Bedrock/Anthropic mapper (`providers/bedrock.py`)

Input lines are modelled after `json.loads`: a line is the literal
`[DONE]`, an undecodable line (skipped), or a decoded JSON object frame
with the fields the mapper reads (absent, or present-but-of-the-wrong-type
where the source's `.get` chain treats it the same, is `none`; an empty
usage dict is falsy in Python and is modelled as an absent one). -/

structure BMessage where
  model : Option String := none
  deriving Repr

structure BContentBlock where
  etype : Option String := none
  id : Option String := none
  name : Option String := none
  deriving Repr

structure BDelta where
  etype : Option String := none
  thinking : Option String := none
  text : Option String := none
  partial_json : Option String := none
  deriving Repr

/-- Token fields read from `amazon-bedrock-invocationMetrics` / `usage`. -/
structure BUsage where
  inputTokenCount : Option Nat := none
  outputTokenCount : Option Nat := none
  input_tokens : Option Nat := none
  output_tokens : Option Nat := none
  deriving Repr

structure BFrame where
  etype : Option String := none
  message : Option BMessage := none
  content_block : Option BContentBlock := none
  delta : Option BDelta := none
  metrics : Option BUsage := none
  usage : Option BUsage := none
  deriving Repr

inductive BLine where
  | done
  | malformed
  | frame (f : BFrame)
  deriving Repr

/-- `a or b` on the token counts (`0` is falsy). -/
def pyOrNat (a b : Nat) : Nat := if a ≠ 0 then a else b

/-- `f"{q:.6f}"` for the costs produced here (positive denominator): scale
by `10^6`, take the floor and the remainder, and round half-to-even (the
decimal arithmetic is exact; the binary-float rounding of the Python
original is not modelled). -/
def fmt6 (q : PyFloat) : String :=
  let sn : Int := q.num * 1000000
  let fl : Int := Int.fdiv sn q.den
  let rem : Int := sn - fl * q.den
  let r : Int :=
    if q.den < 2 * rem then fl + 1
    else if 2 * rem < q.den then fl
    else if fl % 2 = 0 then fl else fl + 1
  let whole := r / 1000000
  let dec := (r % 1000000).toNat
  let ds := toString dec
  toString whole ++ "." ++ String.mk (List.replicate (6 - ds.length) '0') ++ ds

/-- `providers/bedrock.py` `map_events`: maps decoded frames to the unified
event list.  `[DONE]` and `message_stop` break out of the loop. -/
def bedrockMapEvents : List BLine → List StreamEvent
  | [] => []
  | .done :: _ => [⟨"done", none⟩]
  | .malformed :: rest => bedrockMapEvents rest
  | .frame f :: rest =>
    if f.etype = some "message_start" ∧ f.message.isSome then
      (match f.message with
        | some m =>
          match m.model with
          | some v => if v ≠ "" then [(⟨"model", some v⟩ : StreamEvent)] else []
          | none => []
        | none => []) ++ bedrockMapEvents rest
    else if f.etype = some "content_block_start" then
      (let cb := f.content_block.getD {}
        if cb.etype = some "tool_use" then
          [(⟨"tool_start", some (dumpsToolInfo cb.id cb.name)⟩ : StreamEvent)]
        else []) ++ bedrockMapEvents rest
    else if f.etype = some "content_block_delta" then
      (let d := f.delta.getD {}
        if d.etype = some "thinking_delta" then
          match d.thinking with
          | some v => if v ≠ "" then [(⟨"thinking", some v⟩ : StreamEvent)] else []
          | none => []
        else if d.etype = some "text_delta" then
          match d.text with
          | some v => if v ≠ "" then [(⟨"text", some v⟩ : StreamEvent)] else []
          | none => []
        else if d.etype = some "input_json_delta" then
          match d.partial_json with
          | some v => if v ≠ "" then [(⟨"tool_input_delta", some v⟩ : StreamEvent)] else []
          | none => []
        else []) ++ bedrockMapEvents rest
    else if f.etype = some "content_block_stop" then
      (⟨"tool_ready", none⟩ : StreamEvent) :: bedrockMapEvents rest
    else if f.etype = some "message_stop" then
      (match (match f.metrics with
        | some u => some u
        | none => f.usage) with
        | some u =>
          let inTok := pyOrNat (u.inputTokenCount.getD 0) (u.input_tokens.getD 0)
          let outTok := pyOrNat (u.outputTokenCount.getD 0) (u.output_tokens.getD 0)
          let total := inTok + outTok
          if 0 < total then
            let cost : PyFloat :=
              ((inTok : PyFloat) / 1000000) * 3 + ((outTok : PyFloat) / 1000000) * 15
            [(⟨"tokens", some (toString total ++ "|" ++ toString inTok ++ "|" ++
              toString outTok ++ "|" ++ fmt6 cost)⟩ : StreamEvent)]
          else []
        | none => []) ++ [⟨"done", none⟩]
    else bedrockMapEvents rest

/-- The four frames of the end-to-end scenario (usage in the Anthropic
`input_tokens`/`output_tokens` fields). -/
def c4Frames : List BLine :=
  [.frame { etype := some "message_start", message := some { model := some "m1" } },
   .frame { etype := some "content_block_delta",
            delta := some { etype := some "text_delta", text := some "Hello " } },
   .frame { etype := some "content_block_delta",
            delta := some { etype := some "text_delta", text := some "World" } },
   .frame { etype := some "message_stop",
            usage := some { input_tokens := some 10, output_tokens := some 5 } }]

example : bedrockMapEvents c4Frames =
    [⟨"model", some "m1"⟩, ⟨"text", some "Hello "⟩, ⟨"text", some "World"⟩,
     ⟨"tokens", some "15|10|5|0.000105"⟩, ⟨"done", none⟩] := by decide

/-- C4 (confirmed).  End-to-end scenario: the Anthropic/Bedrock frames
`message_start{model:"m1"}`, `content_block_delta{text:"Hello "}`,
`content_block_delta{text:"World"}`, `message_stop{usage:{input:10,
output:5}}` run through the Bedrock mapper and `send_message` produce a
`StreamResult` with text `"Hello World"`, tokens 15, model name `"m1"`,
not aborted and no error. -/
theorem endToEnd_bedrock :
    (sendMessage none (bedrockMapEvents c4Frames) none).text = "Hello World" ∧
      (sendMessage none (bedrockMapEvents c4Frames) none).tokens = 15 ∧
      (sendMessage none (bedrockMapEvents c4Frames) none).model_name = some "m1" ∧
      (sendMessage none (bedrockMapEvents c4Frames) none).aborted = false ∧
      (sendMessage none (bedrockMapEvents c4Frames) none).error = none := by
  refine ⟨?_, ?_, ?_, ?_, ?_⟩ <;> decide

/-! ### C6: tool accumulator round-trip -/

/-- A configured tool executor that returns `{"content": "1"}` for every
call. -/
def c6Exec : J → J → List (String × J) := fun _ _ => [("content", J.str "1")]

/-- The event sequence of the tool-accumulator scenario: a `tool_start`
carrying the mapper-emitted `json.dumps` of `{"id": "t1", "name": "calc"}`,
the input JSON split over two `tool_input_delta` events, then
`tool_ready`. -/
def c6Events : List StreamEvent :=
  [⟨"tool_start", some (dumpsToolInfo (some "t1") (some "calc"))⟩,
   ⟨"tool_input_delta", some "\x7b\"x\":"⟩,
   ⟨"tool_input_delta", some "1\x7d"⟩,
   ⟨"tool_ready", none⟩]

/-- C6 (confirmed).  Feeding `tool_start{id:"t1",name:"calc"}`,
`tool_input_delta` of the two argument halves, `tool_ready` to
`send_message` with a configured executor returning `{"content": "1"}`
produces exactly one tool-call record with id `"t1"`, name `"calc"`,
input `{x: 1}` and result `"1"`. -/
theorem toolAccumulator_roundTrip :
    (sendMessage (some c6Exec) c6Events none).tool_calls =
      [J.obj [("tool_call", J.obj [("id", J.str "t1"), ("name", J.str "calc"),
        ("input", J.obj [("x", J.num 1)])]), ("result", J.str "1")]] := by rfl

/-! ### C9: the estimation tag is stripped by `send_message` -/

theorem splitPipe_ne_nil (l : List Char) : splitPipe l ≠ [] := by
  cases l with
  | nil => simp [splitPipe]
  | cons c r =>
    simp only [splitPipe]
    rcases splitPipe r with _ | ⟨h, t⟩
    · simp
    · dsimp only
      split <;> simp

theorem splitPipe_cons_ne (c : Char) (w : List Char) (hc : c ≠ '|') :
    splitPipe (c :: w) =
      (c :: (splitPipe w).headD []) :: (splitPipe w).tail := by
  simp only [splitPipe]
  rcases hr : splitPipe w with _ | ⟨h, t⟩
  · exact absurd hr (splitPipe_ne_nil w)
  · simp [hc]

/-- The cost field parsed from the pipe-separated parts of a tokens value
(`float(parts[3]) if parts[3] else 0.0`). -/
def costField (parts : List (List Char)) : Option PyFloat :=
  let costStr := (parts.get? 3).getD []
  if costStr.isEmpty then some (0 : PyFloat) else parseDecimal (String.mk costStr)

/-- Characterisation of `smStep` on a pipe-bearing tokens event. -/
theorem smStep_tokens (ex? : Option (J → J → List (String × J))) (s : SMState)
    (v : List Char) (hv : v ≠ []) (hp : '|' ∈ v) :
    smStep ex? s ⟨"tokens", some (String.mk v)⟩ =
      (if 4 ≤ (splitPipe v).length then
        match costField (splitPipe v) with
        | some cost =>
          .ret ⟨String.join s.textBuffer,
            (if pyIsDigit (tildeStrip ((splitPipe v).headD []))
             then natOfDigits (tildeStrip ((splitPipe v).headD [])) else 0),
            cost, s.tool_calls, s.model_name, false, none⟩
        | none =>
          .exn (.other ("could not convert string to float: " ++
            String.mk (((splitPipe v).get? 3).getD [])))
       else
        .ret ⟨String.join s.textBuffer,
          (if pyIsDigit v then natOfDigits v else 0), 0,
          s.tool_calls, s.model_name, false, none⟩) := by
  have hne : String.mk v ≠ "" := by
    intro h
    exact hv (by simpa [String.ext_iff] using h)
  have h0 : smStep ex? s ⟨"tokens", some (String.mk v)⟩ =
      tokensStep s (some (String.mk v)) := rfl
  rw [h0]
  simp only [tokensStep]
  rw [if_pos (show String.mk v ≠ "" ∧ '|' ∈ (String.mk v).toList from ⟨hne, hp⟩)]
  rfl

/-- C9 (confirmed).  For a tokens event whose pipe-separated value begins
with `~`, `send_message` returns the same `StreamResult` as for the value
with that `~` removed — the result carries no indication that the count
was estimated — and (when the value has at least four parts and its cost
field parses) the tokens field is the plain integer of the total field
with all leading `~` stripped, or `0` if the remainder is not all
digits. -/
theorem estimationTag_notPreserved (ex? : Option (J → J → List (String × J)))
    (w : List Char) (hp : '|' ∈ w) :
    sendMessage ex? [⟨"tokens", some (String.mk ('~' :: w))⟩] none =
      sendMessage ex? [⟨"tokens", some (String.mk w)⟩] none ∧
    (4 ≤ (splitPipe w).length →
      (∃ c, costField (splitPipe w) = some c) →
      (sendMessage ex? [⟨"tokens", some (String.mk ('~' :: w))⟩] none).tokens =
        (if pyIsDigit (tildeStrip ((splitPipe w).headD []))
         then natOfDigits (tildeStrip ((splitPipe w).headD [])) else 0)) := by
  rcases hw : splitPipe w with _ | ⟨h, t⟩
  · exact absurd hw (splitPipe_ne_nil w)
  have hw2 : splitPipe ('~' :: w) = ('~' :: h) :: t := by
    rw [splitPipe_cons_ne '~' w (by decide), hw]
    simp
  have hmem : '|' ∈ '~' :: w := List.mem_cons_of_mem _ hp
  have hne : w ≠ [] := by rintro rfl; simp at hp
  have hstrip : tildeStrip ('~' :: h) = tildeStrip h := rfl
  have hcf : costField (('~' :: h) :: t) = costField (h :: t) := rfl
  have hget : (('~' :: h) :: t).get? 3 = (h :: t).get? 3 := rfl
  have hnd1 : pyIsDigit ('~' :: w) = false := by
    have hall : ('~' :: w).all Char.isDigit = false := by
      rw [List.all_eq_false]
      exact ⟨'~', List.mem_cons_self _ _, by decide⟩
    simp [pyIsDigit, hall]
  have hnd2 : pyIsDigit w = false := by
    have hall : w.all Char.isDigit = false := by
      rw [List.all_eq_false]
      exact ⟨'|', hp, by decide⟩
    simp [pyIsDigit, hall]
  have hs1 := smStep_tokens ex? SMState.init ('~' :: w) (by simp) hmem
  have hs2 := smStep_tokens ex? SMState.init w hne hp
  rw [hw2] at hs1
  rw [hw] at hs2
  simp only [List.headD_cons, List.length_cons] at hs1 hs2
  rw [hstrip, hcf, hget, hnd1] at hs1
  rw [hnd2] at hs2
  have hsame : smStep ex? SMState.init ⟨"tokens", some (String.mk ('~' :: w))⟩ =
      smStep ex? SMState.init ⟨"tokens", some (String.mk w)⟩ := by
    rw [hs1, hs2]
    simp
  constructor
  · show sendMessageGo ex? SMState.init [⟨"tokens", some (String.mk ('~' :: w))⟩] none =
      sendMessageGo ex? SMState.init [⟨"tokens", some (String.mk w)⟩] none
    simp only [sendMessageGo]
    rw [hsame]
  · intro hlen hcost
    obtain ⟨c, hc⟩ := hcost
    simp only [List.length_cons] at hlen
    show (sendMessageGo ex? SMState.init
      [⟨"tokens", some (String.mk ('~' :: w))⟩] none).tokens = _
    simp only [sendMessageGo]
    rw [hs1, if_pos hlen, hc]
    simp only [List.headD_cons]

theorem estimationTag_notPreserved_witness :
    '|' ∈ "15|10|5|0.000105".toList ∧
    (sendMessage none
        [⟨"tokens", some (String.mk ('~' :: "15|10|5|0.000105".toList))⟩] none =
      sendMessage none
        [⟨"tokens", some (String.mk "15|10|5|0.000105".toList)⟩] none ∧
    (4 ≤ (splitPipe "15|10|5|0.000105".toList).length →
      (∃ c, costField (splitPipe "15|10|5|0.000105".toList) = some c) →
      (sendMessage none
          [⟨"tokens", some (String.mk ('~' :: "15|10|5|0.000105".toList))⟩]
          none).tokens =
        (if pyIsDigit (tildeStrip ((splitPipe "15|10|5|0.000105".toList).headD []))
         then natOfDigits (tildeStrip ((splitPipe "15|10|5|0.000105".toList).headD []))
         else 0))) :=
  ⟨by decide, estimationTag_notPreserved none "15|10|5|0.000105".toList (by decide)⟩

/-! ### C7: partial result on failure -/

/-- The text deltas of an event stream, in order (`event.value or ""` of
the `text` events). -/
def textDeltas (events : List StreamEvent) : List String :=
  events.filterMap (fun ev => if ev.kind = "text" then some (ev.value.getD "") else none)

/-- `current_tool` is unset or holds a parsed JSON object (so that
`current_tool.get(...)` cannot raise). -/
def currentToolOk (s : SMState) : Prop :=
  ∀ j, s.currentTool = some j → ∃ kvs, j = J.obj kvs

theorem textDeltas_cons (ev : StreamEvent) (rest : List StreamEvent) :
    textDeltas (ev :: rest) =
      (if ev.kind = "text" then [ev.value.getD ""] else []) ++ textDeltas rest := by
  by_cases h : ev.kind = "text" <;> simp [textDeltas, List.filterMap_cons, h]

/-- On a non-tokens, non-done event whose tool-start payload (if any)
parses to an object, the loop body continues with a state whose text
buffer gains exactly the event's text delta. -/
theorem smStep_cont (ex : J → J → List (String × J)) (s : SMState) (ev : StreamEvent)
    (hok : currentToolOk s)
    (hk1 : ev.kind ≠ "tokens") (hk2 : ev.kind ≠ "done")
    (hcontent : ∀ n i, (jGet (ex n i) "content").isSome)
    (hts : ev.kind = "tool_start" → ∀ v, ev.value = some v → v ≠ "" →
      ∀ j, pyJsonParse v = some j → ∃ kvs, j = J.obj kvs) :
    ∃ s2, smStep (some ex) s ev = .cont s2 ∧ currentToolOk s2 ∧
      s2.textBuffer = s.textBuffer ++
        (if ev.kind = "text" then [ev.value.getD ""] else []) := by
  by_cases h1 : ev.kind = "model"
  · have hstep : smStep (some ex) s ev =
        .cont { s with model_name := pyOrStr ev.value s.model_name } := by
      rw [smStep.eq_def, if_pos h1]
    exact ⟨_, hstep, fun j hj => hok j hj,
      by rw [if_neg (by rw [h1]; decide)]; simp⟩
  by_cases h2 : ev.kind = "text"
  · have hstep : smStep (some ex) s ev =
        .cont { s with textBuffer := s.textBuffer ++ [ev.value.getD ""] } := by
      rw [smStep.eq_def, if_neg h1, if_pos h2]
    exact ⟨_, hstep, fun j hj => hok j hj, by rw [if_pos h2]⟩
  by_cases h3 : ev.kind = "thinking"
  · have hstep : smStep (some ex) s ev = .cont s := by
      rw [smStep.eq_def, if_neg h1, if_neg h2, if_pos h3]
    exact ⟨s, hstep, hok, by rw [if_neg h2]; simp⟩
  by_cases h4 : ev.kind = "tool_start"
  · rcases hv : ev.value with _ | v
    · have hstep : smStep (some ex) s ev = .cont s := by
        rw [smStep.eq_def, if_neg h1, if_neg h2, if_neg h3, if_pos h4, hv]
      exact ⟨s, hstep, hok, by rw [if_neg h2]; simp⟩
    by_cases hve : v = ""
    · subst hve
      have hstep : smStep (some ex) s ev = .cont s := by
        rw [smStep.eq_def, if_neg h1, if_neg h2, if_neg h3, if_pos h4, hv]
        simp
      exact ⟨s, hstep, hok, by rw [if_neg h2]; simp⟩
    rcases hj : pyJsonParse v with _ | j
    · have hstep : smStep (some ex) s ev = .cont s := by
        rw [smStep.eq_def, if_neg h1, if_neg h2, if_neg h3, if_pos h4, hv]
        dsimp only
        rw [if_pos hve, hj]
      exact ⟨s, hstep, hok, by rw [if_neg h2]; simp⟩
    · have hstep : smStep (some ex) s ev =
          .cont { s with currentTool := some j, toolInputBuffer := "" } := by
        rw [smStep.eq_def, if_neg h1, if_neg h2, if_neg h3, if_pos h4, hv]
        dsimp only
        rw [if_pos hve, hj]
      refine ⟨_, hstep, ?_, by rw [if_neg h2]; simp⟩
      intro j' hj'
      simp only at hj'
      cases hj'
      exact hts h4 v hv hve j hj
  by_cases h5 : ev.kind = "tool_input_delta"
  · rcases hv : ev.value with _ | v
    · have hstep : smStep (some ex) s ev = .cont s := by
        rw [smStep.eq_def, if_neg h1, if_neg h2, if_neg h3, if_neg h4, if_pos h5, hv]
      exact ⟨s, hstep, hok, by rw [if_neg h2]; simp⟩
    by_cases hve : v = ""
    · subst hve
      have hstep : smStep (some ex) s ev = .cont s := by
        rw [smStep.eq_def, if_neg h1, if_neg h2, if_neg h3, if_neg h4, if_pos h5, hv]
        simp
      exact ⟨s, hstep, hok, by rw [if_neg h2]; simp⟩
    · have hstep : smStep (some ex) s ev =
          .cont { s with toolInputBuffer := s.toolInputBuffer ++ v } := by
        rw [smStep.eq_def, if_neg h1, if_neg h2, if_neg h3, if_neg h4, if_pos h5, hv]
        dsimp only
        rw [if_pos hve]
      refine ⟨_, hstep, ?_, by rw [if_neg h2]; simp⟩
      intro j' hj'
      exact hok j' hj'
  by_cases h6 : ev.kind = "tool_ready"
  · rcases hct : s.currentTool with _ | ct
    · have hstep : smStep (some ex) s ev = .cont s := by
        rw [smStep.eq_def, if_neg h1, if_neg h2, if_neg h3, if_neg h4, if_neg h5,
          if_pos h6, hct]
      exact ⟨s, hstep, hok, by rw [if_neg h2]; simp⟩
    by_cases htr : jTruthy ct = true
    · obtain ⟨kvs, rfl⟩ := hok ct hct
      rcases hin : (if s.toolInputBuffer ≠ "" then pyJsonParse s.toolInputBuffer
          else some (.obj [])) with _ | input
      · have hstep : smStep (some ex) s ev = .cont { s with currentTool := none } := by
          rw [smStep.eq_def, if_neg h1, if_neg h2, if_neg h3, if_neg h4, if_neg h5,
            if_pos h6, hct]
          dsimp only
          rw [if_pos htr, hin]
        refine ⟨_, hstep, ?_, by rw [if_neg h2]; simp⟩
        intro j' hj'
        simp only at hj'
        exact Option.noConfusion hj'
      · obtain ⟨content, hcont⟩ := Option.isSome_iff_exists.mp
          (hcontent ((jGet kvs "name").getD .null) input)
        have hstep : smStep (some ex) s ev =
            .cont { s with
              tool_calls := s.tool_calls ++
                [J.obj [("tool_call", J.obj [("id", (jGet kvs "id").getD .null),
                  ("name", (jGet kvs "name").getD .null),
                  ("input", input)]), ("result", content)]],
              currentTool := none } := by
          rw [smStep.eq_def, if_neg h1, if_neg h2, if_neg h3, if_neg h4, if_neg h5,
            if_pos h6, hct]
          dsimp only
          rw [if_pos htr, hin]
          dsimp only
          rw [hcont]
        refine ⟨_, hstep, ?_, by rw [if_neg h2]; simp⟩
        intro j' hj'
        simp only at hj'
        exact Option.noConfusion hj'
    · have hstep : smStep (some ex) s ev = .cont s := by
        rw [smStep.eq_def, if_neg h1, if_neg h2, if_neg h3, if_neg h4, if_neg h5,
          if_pos h6, hct]
        dsimp only
        rw [if_neg htr]
      exact ⟨s, hstep, hok, by rw [if_neg h2]; simp⟩
  have hstep : smStep (some ex) s ev = .cont s := by
    rw [smStep.eq_def, if_neg h1, if_neg h2, if_neg h3, if_neg h4, if_neg h5,
      if_neg h6, if_neg hk1, if_neg hk2]
  exact ⟨s, hstep, hok, by rw [if_neg h2]; simp⟩

/-- Running the loop over exception-free events: the final state is the
same whatever the stream's tail outcome is, and its text buffer is the
initial one extended with the stream's text deltas. -/
theorem sendMessageGo_clean (ex : J → J → List (String × J))
    (events : List StreamEvent)
    (h1 : ∀ ev ∈ events, ev.kind ≠ "tokens" ∧ ev.kind ≠ "done")
    (hcontent : ∀ n i, (jGet (ex n i) "content").isSome)
    (h3 : ∀ ev ∈ events, ev.kind = "tool_start" → ∀ v, ev.value = some v → v ≠ "" →
      ∀ j, pyJsonParse v = some j → ∃ kvs, j = J.obj kvs) :
    ∀ s, currentToolOk s → ∃ s2, currentToolOk s2 ∧
      s2.textBuffer = s.textBuffer ++ textDeltas events ∧
      ∀ tail, sendMessageGo (some ex) s events tail =
        (match tail with | some e => exnResult e s2 | none => finalResult s2) := by
  induction events with
  | nil =>
    intro s hs
    refine ⟨s, hs, by simp [textDeltas], fun tail => ?_⟩
    cases tail <;> rfl
  | cons ev rest ih =>
    intro s hs
    obtain ⟨sm, hstep, hok2, htb⟩ := smStep_cont ex s ev hs
      (h1 ev (List.mem_cons_self _ _)).1 (h1 ev (List.mem_cons_self _ _)).2 hcontent
      (h3 ev (List.mem_cons_self _ _))
    obtain ⟨s2, hok3, htb2, hrun⟩ := ih
      (fun e he => h1 e (List.mem_cons_of_mem _ he))
      (fun e he => h3 e (List.mem_cons_of_mem _ he)) sm hok2
    refine ⟨s2, hok3, ?_, fun tail => ?_⟩
    · rw [htb2, htb, textDeltas_cons, List.append_assoc]
    · rw [show sendMessageGo (some ex) s (ev :: rest) tail =
        (match smStep (some ex) s ev with
         | .cont s2 => sendMessageGo (some ex) s2 rest tail
         | .ret r => r
         | .brk => finalResult s
         | .exn e => exnResult e s) from rfl, hstep]
      exact hrun tail

/-- C7 (confirmed).  For an event stream with no tokens/done event whose
iteration then raises an exception (and whose tool-start payloads parse to
objects, the executor's results carrying a `content` key), `send_message`
does not propagate the exception: it returns a `StreamResult` whose error
field is set, whose text is the concatenation of all text deltas received
before the error, and whose tool_calls are exactly those of the same run
without the failure. -/
theorem partialResult_onFailure (ex : J → J → List (String × J))
    (events : List StreamEvent) (e : PyExn)
    (h1 : ∀ ev ∈ events, ev.kind ≠ "tokens" ∧ ev.kind ≠ "done")
    (h2 : ∀ n i, (jGet (ex n i) "content").isSome)
    (h3 : ∀ ev ∈ events, ev.kind = "tool_start" → ∀ v, ev.value = some v → v ≠ "" →
      ∀ j, pyJsonParse v = some j → ∃ kvs, j = J.obj kvs) :
    (sendMessage (some ex) events (some e)).error ≠ none ∧
    (sendMessage (some ex) events (some e)).text = String.join (textDeltas events) ∧
    (sendMessage (some ex) events (some e)).tool_calls =
      (sendMessage (some ex) events none).tool_calls := by
  obtain ⟨s2, _, htb, hrun⟩ := sendMessageGo_clean ex events h1 h2 h3 SMState.init
    (by intro j hj; exact Option.noConfusion hj)
  have he := hrun (some e)
  have hn := hrun none
  simp only at he hn
  unfold sendMessage
  rw [he, hn]
  refine ⟨?_, ?_, ?_⟩
  · cases e <;> simp [exnResult]
  · have : s2.textBuffer = textDeltas events := by simpa [SMState.init] using htb
    cases e <;> simp [exnResult, finalResult, this]
  · cases e <;> simp [exnResult, finalResult]

def c7Exec : J → J → List (String × J) := fun _ _ => [("content", J.str "ok")]

def c7Events : List StreamEvent := [⟨"text", some "Hello "⟩, ⟨"text", some "wor"⟩]

theorem partialResult_onFailure_witness :
    (sendMessage (some c7Exec) c7Events (some (.requestException "boom"))).error ≠ none ∧
    (sendMessage (some c7Exec) c7Events (some (.requestException "boom"))).text =
      String.join (textDeltas c7Events) ∧
    (sendMessage (some c7Exec) c7Events (some (.requestException "boom"))).tool_calls =
      (sendMessage (some c7Exec) c7Events none).tool_calls :=
  partialResult_onFailure c7Exec c7Events (.requestException "boom")
    (by decide)
    (fun _ _ => rfl)
    (by intro ev hev hk; fin_cases hev <;> simp_all)

/-! ### Azure/OpenAI mapper (`providers/azure.py`)

Input lines are modelled as for Bedrock: `[DONE]`, an undecodable line,
or a decoded chunk carrying the fields `map_events` reads.  A field whose
`.get` result is absent or of a type the source's guards reject
(`isinstance(content, str)` etc.) is `none`; a falsy `usage`/`choices`
dict or list is modelled as an absent one. -/

structure AFunction where
  name : Option String := none
  arguments : Option String := none
  deriving Repr, DecidableEq

structure AToolCall where
  index : Option Int := none
  id : Option String := none
  function : Option AFunction := none
  deriving Repr, DecidableEq

structure ADelta where
  content : Option String := none
  tool_calls : Option (List AToolCall) := none
  deriving Repr, DecidableEq

structure AChoice where
  delta : Option ADelta := none
  finish_reason : Option String := none
  deriving Repr, DecidableEq

structure AUsage where
  total_tokens : Option Nat := none
  prompt_tokens : Option Nat := none
  completion_tokens : Option Nat := none
  deriving Repr, DecidableEq

structure AChunk where
  model : Option String := none
  choices : Option (List AChoice) := none
  usage : Option AUsage := none
  deriving Repr, DecidableEq

inductive ALine where
  | done
  | malformed
  | chunk (c : AChunk)
  deriving Repr, DecidableEq

/-- One entry of the `current_tool_calls` dict (insertion order kept). -/
structure AzTool where
  index : Int
  id : String
  name : String
  arguments : String
  deriving Repr, DecidableEq

/-- The loop state of `azure.py` `map_events`. -/
structure AzState where
  sent_model : Bool
  current_tool_calls : List AzTool
  accumulated_text : String
  has_finished : Bool
  deriving Repr, DecidableEq

def AzState.init : AzState := ⟨false, [], "", false⟩

/-- `len(s.split())`: the number of maximal non-whitespace runs. -/
def wordCountAux : List Char → Bool → Nat
  | [], _ => 0
  | c :: r, inw =>
    if isPyWs c then wordCountAux r false
    else (if inw then 0 else 1) + wordCountAux r true

def pyWordCount (s : String) : Nat := wordCountAux s.toList false

/-- `max(1, q)` on a positive-denominator float value (Python `max`
returns the first argument on ties). -/
def pyMaxOne (q : PyFloat) : PyFloat := if q.den < q.num then q else 1

/-- `int(q)` for the nonnegative values used here (truncation). -/
def pyIntOf (q : PyFloat) : Int := q.num / q.den

/-- The estimated token info emitted by the Azure fallbacks:
`f"~{est_total}|~{est_in}|~{int(est_out)}|{cost:.6f}"` with
`est_out = max(1, len(text.split()) * 1.3)`, `est_in = 10` and GPT-5
pricing `$0.91/1K` input, `$6.77/1K` output. -/
def azEstimateInfo (accumulated_text : String) : String :=
  let estimated_output_tokens : PyFloat :=
    pyMaxOne (((pyWordCount accumulated_text : Nat) : PyFloat) * ⟨13, 10⟩)
  let estimated_input_tokens : Nat := 10
  let estimated_total_tokens : Int :=
    pyIntOf (((estimated_input_tokens : Nat) : PyFloat) + estimated_output_tokens)
  let input_cost : PyFloat :=
    (((estimated_input_tokens : Nat) : PyFloat) / 1000) * ⟨91, 100000⟩
  let output_cost : PyFloat := (estimated_output_tokens / 1000) * ⟨677, 100000⟩
  let total_cost := input_cost + output_cost
  "~" ++ toString estimated_total_tokens ++ "|~" ++ toString estimated_input_tokens ++
    "|~" ++ toString (pyIntOf estimated_output_tokens) ++ "|" ++ fmt6 total_cost

/-- The `for tool_call in tool_calls:` body of the first choices loop. -/
def azProcTool (p : List StreamEvent × AzState) (tc : AToolCall) :
    List StreamEvent × AzState :=
  let (evs, st) := p
  let index := tc.index.getD 0
  let function := tc.function.getD {}
  let (evs1, st1) :=
    if ¬ st.current_tool_calls.any (fun t => t.index = index) then
      let name := (function : AFunction).name.getD ""
      match tc.id with
      | some tid =>
        if tid ≠ "" ∧ name ≠ "" then
          (evs ++ [(⟨"tool_start", some (dumpsToolInfo (some tid) (some name))⟩ :
              StreamEvent)],
           { st with current_tool_calls :=
              st.current_tool_calls ++ [⟨index, tid, name, ""⟩] })
        else (evs, st)
      | none => (evs, st)
    else (evs, st)
  let arguments := (function : AFunction).arguments.getD ""
  let updArgs : AzTool → AzTool := fun t =>
    if t.index = index then { t with arguments := t.arguments ++ arguments } else t
  if arguments ≠ "" ∧ st1.current_tool_calls.any (fun t => t.index = index) then
    (evs1 ++ [(⟨"tool_input_delta", some arguments⟩ : StreamEvent)],
     { st1 with current_tool_calls := st1.current_tool_calls.map updArgs })
  else (evs1, st1)

/-- The `for ch in choices:` body of the first choices loop (text deltas
and tool-call bookkeeping). -/
def azProcChoice (p : List StreamEvent × AzState) (ch : AChoice) :
    List StreamEvent × AzState :=
  let (evs, st) := p
  let delta := ch.delta.getD {}
  let (evs1, st1) :=
    match (delta : ADelta).content with
    | some c =>
      if c ≠ "" then
        (evs ++ [(⟨"text", some c⟩ : StreamEvent)],
         { st with accumulated_text := st.accumulated_text ++ c })
      else (evs, st)
    | none => (evs, st)
  match (delta : ADelta).tool_calls with
  | some tcs => if tcs ≠ [] then tcs.foldl azProcTool (evs1, st1) else (evs1, st1)
  | none => (evs1, st1)

/-- Outcome of processing one line: continue, break out of the loop
(the code after the loop still runs), or return from the generator. -/
inductive AzOut where
  | cont (evs : List StreamEvent) (st : AzState)
  | brk (evs : List StreamEvent) (st : AzState)
  | ret (evs : List StreamEvent)
  deriving Repr

/-- The empty-chunk fallback (`if has_finished and not usage and
len(choices) == 0`). -/
def azEmptyFallback (st : AzState) (choices : List AChoice)
    (evs : List StreamEvent) (usagePresent : Bool) : AzOut :=
  if st.has_finished ∧ ¬usagePresent ∧ choices.length = 0 then
    .ret (evs ++
      (if st.accumulated_text ≠ "" then
        [(⟨"tokens", some (azEstimateInfo st.accumulated_text)⟩ : StreamEvent)]
       else []) ++ [⟨"done", none⟩])
  else .cont evs st

/-- The finish-reason check loop after the usage block, followed by the
empty-chunk fallback. -/
def azAfterUsage (st : AzState) (choices : List AChoice)
    (evs : List StreamEvent) (usagePresent : Bool) : AzOut :=
  if choices.any (fun ch => ch.finish_reason ≠ none) then
    if usagePresent then .ret (evs ++ [⟨"done", none⟩])
    else azEmptyFallback { st with has_finished := true } choices evs usagePresent
  else azEmptyFallback st choices evs usagePresent

/-- The `model = evt.get("model")` block at the top of the loop body. -/
def azModelEvent (st : AzState) (model? : Option String) :
    List StreamEvent × AzState :=
  match model? with
  | some m =>
    if ¬st.sent_model ∧ m ≠ "" then
      ([(⟨"model", some m⟩ : StreamEvent)], { st with sent_model := true })
    else ([], st)
  | none => ([], st)

/-- The loop body after the model block: choices processing, tool
completion, usage, finish check and the empty-chunk fallback. -/
def azChunkRest (st0 : AzState) (evt : AChunk) (evs0 : List StreamEvent) : AzOut :=
  let choices := evt.choices.getD []
  let (evs1, st1) := choices.foldl azProcChoice (evs0, st0)
  if (choices.any (fun ch => ch.finish_reason = some "tool_calls")) ∧
      st1.current_tool_calls ≠ [] then
    .ret (evs1 ++ st1.current_tool_calls.map (fun _ => ⟨"tool_ready", none⟩))
  else
    match evt.usage with
    | some u =>
      let total_tokens := u.total_tokens.getD 0
      let input_tokens := u.prompt_tokens.getD 0
      let output_tokens := u.completion_tokens.getD 0
      if 0 < total_tokens then
        let total_cost : PyFloat :=
          ((input_tokens : PyFloat) / 1000) * ⟨91, 100000⟩ +
            ((output_tokens : PyFloat) / 1000) * ⟨677, 100000⟩
        let tok : StreamEvent :=
          ⟨"tokens", some (toString total_tokens ++ "|" ++ toString input_tokens ++
            "|" ++ toString output_tokens ++ "|" ++ fmt6 total_cost)⟩
        if st1.has_finished then .ret (evs1 ++ [tok, ⟨"done", none⟩])
        else azAfterUsage st1 choices (evs1 ++ [tok]) true
      else azAfterUsage st1 choices evs1 true
    | none => azAfterUsage st1 choices evs1 false

/-- Processing of one SSE line by `azure.py` `map_events`. -/
def azStep (st : AzState) (l : ALine) : AzOut :=
  match l with
  | .done => .brk [⟨"done", none⟩] st
  | .malformed => .cont [] st
  | .chunk evt =>
    let (evs0, st0) := azModelEvent st evt.model
    azChunkRest st0 evt evs0

/-- The code after the `for data in lines:` loop. -/
def azEpilogue (st : AzState) : List StreamEvent :=
  if st.has_finished then
    (if st.accumulated_text ≠ "" then
      [(⟨"tokens", some (azEstimateInfo st.accumulated_text)⟩ : StreamEvent)]
     else []) ++ [⟨"done", none⟩]
  else []

def azRun (st : AzState) : List ALine → List StreamEvent
  | [] => azEpilogue st
  | l :: rest =>
    match azStep st l with
    | .cont evs st2 => evs ++ azRun st2 rest
    | .brk evs st2 => evs ++ azEpilogue st2
    | .ret evs => evs

/-- `providers/azure.py` `map_events` over the decoded lines. -/
def azureMapEvents (lines : List ALine) : List StreamEvent :=
  azRun AzState.init lines

/-! ### C8: the Azure estimation fallback -/

/-- The text contribution of one choice (`delta.get("content")` when a
nonempty string). -/
def azChoiceText (ch : AChoice) : String :=
  match (ch.delta.getD {} : ADelta).content with
  | some c => if c ≠ "" then c else ""
  | none => ""

def azChoicesText : List AChoice → String
  | [] => ""
  | ch :: rest => azChoiceText ch ++ azChoicesText rest

def azChunkText (l : ALine) : String :=
  match l with
  | .chunk evt => azChoicesText (evt.choices.getD [])
  | _ => ""

/-- The text accumulated over a whole line sequence. -/
def azAccText : List ALine → String
  | [] => ""
  | l :: rest => azChunkText l ++ azAccText rest

/-- Whether a line carries a choice with a `finish_reason`. -/
def azHasFinish (l : ALine) : Bool :=
  match l with
  | .chunk evt => (evt.choices.getD []).any (fun ch => ch.finish_reason ≠ none)
  | _ => false

/-- Whether a decoded line is free of usage data (`if usage:` never
fires). -/
def azNoUsage : ALine → Bool
  | .chunk evt => evt.usage == none
  | _ => true

/-- True unless the tracked-tool-calls early return (`finish_reason ==
"tool_calls" and current_tool_calls`) fires at some chunk while the lines
are processed from state `st`. -/
def azNoToolRet (st : AzState) : List ALine → Bool
  | [] => true
  | .done :: _ => true
  | .malformed :: rest => azNoToolRet st rest
  | .chunk evt :: rest =>
    if ((evt.choices.getD []).any (fun ch => ch.finish_reason = some "tool_calls")) ∧
        ((evt.choices.getD []).foldl azProcChoice
          (azModelEvent st evt.model)).2.current_tool_calls ≠ [] then
      false
    else
      match azStep st (.chunk evt) with
      | .cont _ st2 => azNoToolRet st2 rest
      | _ => true

/-- The mapper's state at the moment processing stops: at the first
`[DONE]` line or at exhaustion the current state, at a returning chunk the
state after that chunk's choices loop. -/
def azStopState (st : AzState) : List ALine → AzState
  | [] => st
  | .done :: _ => st
  | .malformed :: rest => azStopState st rest
  | .chunk evt :: rest =>
    match azStep st (.chunk evt) with
    | .cont _ st2 => azStopState st2 rest
    | _ => ((evt.choices.getD []).foldl azProcChoice (azModelEvent st evt.model)).2

/-- With no usage data, the post-choices code either continues or fires
the empty-chunk fallback, which returns the `~`-estimate (when the
accumulated text is nonempty) followed by done. -/
theorem azAfterUsage_false_inv (st1 : AzState) (choices : List AChoice)
    (evs1 : List StreamEvent) :
    (∃ st2, azAfterUsage st1 choices evs1 false = .cont evs1 st2) ∨
    (azAfterUsage st1 choices evs1 false = .ret (evs1 ++
      (if st1.accumulated_text ≠ "" then
        [⟨"tokens", some (azEstimateInfo st1.accumulated_text)⟩] else []) ++
      [⟨"done", none⟩])) := by
  unfold azAfterUsage azEmptyFallback
  rcases hf : choices.any (fun ch => ch.finish_reason ≠ none) with _ | _
  · rw [if_neg (by simp [hf])]
    split
    · exact .inr rfl
    · exact .inl ⟨st1, rfl⟩
  · rw [if_pos (by simp [hf]), if_neg (by simp)]
    split
    · rename_i hcond
      exfalso
      obtain ⟨-, -, hlen⟩ := hcond
      cases choices with
      | nil => simp at hf
      | cons c cs => simp at hlen
    · exact .inl ⟨_, rfl⟩

/-- On a usage-free chunk on which the tracked-tool-calls return does not
fire, the loop body either continues or returns the estimate/done pair of
the post-choices state. -/
theorem azChunkRest_inv (q : List StreamEvent × AzState) (evt : AChunk)
    (hu : evt.usage = none)
    (hntr : ¬(((evt.choices.getD []).any
        (fun ch => ch.finish_reason = some "tool_calls")) ∧
        ((evt.choices.getD []).foldl azProcChoice q).2.current_tool_calls ≠ [])) :
    (∃ evs st2, azChunkRest q.2 evt q.1 = .cont evs st2) ∨
    (azChunkRest q.2 evt q.1 = .ret
      (((evt.choices.getD []).foldl azProcChoice q).1 ++
        (if ((evt.choices.getD []).foldl azProcChoice q).2.accumulated_text ≠ "" then
          [⟨"tokens", some (azEstimateInfo
            ((evt.choices.getD []).foldl azProcChoice q).2.accumulated_text)⟩]
         else []) ++ [⟨"done", none⟩])) := by
  obtain ⟨evs0, st0⟩ := q
  have h0 : azChunkRest st0 evt evs0 =
      azAfterUsage ((evt.choices.getD []).foldl azProcChoice (evs0, st0)).2
        (evt.choices.getD [])
        ((evt.choices.getD []).foldl azProcChoice (evs0, st0)).1 false := by
    unfold azChunkRest
    dsimp only
    rw [if_neg hntr, hu]
  rw [h0]
  rcases azAfterUsage_false_inv
      ((evt.choices.getD []).foldl azProcChoice (evs0, st0)).2
      (evt.choices.getD [])
      ((evt.choices.getD []).foldl azProcChoice (evs0, st0)).1 with ⟨st2, hc⟩ | hr
  · exact .inl ⟨_, st2, hc⟩
  · exact .inr hr

/-- Over usage-free lines on which the tracked-tool-calls return never
fires, if the run stops with `has_finished` set and nonempty accumulated
text, the emitted events end with the estimate tokens event followed by a
done event — whether the run stops at a trailing empty-choices chunk (the
mid-loop fallback), at a `[DONE]` line, or by exhaustion. -/
theorem azRun_ends (lines : List ALine) :
    ∀ st : AzState, lines.all azNoUsage = true →
      azNoToolRet st lines = true →
      (azStopState st lines).has_finished = true →
      (azStopState st lines).accumulated_text ≠ "" →
      ∃ pre, azRun st lines = pre ++
        [⟨"tokens", some (azEstimateInfo (azStopState st lines).accumulated_text)⟩,
         ⟨"done", none⟩] := by
  induction lines with
  | nil =>
    intro st _ _ h3 h4
    have hstop : azStopState st [] = st := rfl
    rw [hstop] at h3 h4 ⊢
    refine ⟨[], ?_⟩
    show azEpilogue st = _
    unfold azEpilogue
    rw [if_pos h3, if_pos h4]
    simp
  | cons l rest ih =>
    intro st h1 h2 h3 h4
    rcases l with _ | _ | evt
    · have hstop : azStopState st (ALine.done :: rest) = st := rfl
      rw [hstop] at h3 h4 ⊢
      refine ⟨[⟨"done", none⟩], ?_⟩
      rw [show azRun st (ALine.done :: rest) =
        [(⟨"done", none⟩ : StreamEvent)] ++ azEpilogue st from rfl]
      unfold azEpilogue
      rw [if_pos h3, if_pos h4]
      simp
    · have hstop : azStopState st (ALine.malformed :: rest) = azStopState st rest := rfl
      rw [hstop] at h3 h4 ⊢
      have h2' : azNoToolRet st rest = true := h2
      have h1' : rest.all azNoUsage = true := by
        simp only [List.all_cons, Bool.and_eq_true] at h1
        exact h1.2
      obtain ⟨pre, hpre⟩ := ih st h1' h2' h3 h4
      refine ⟨pre, ?_⟩
      rw [show azRun st (ALine.malformed :: rest) = [] ++ azRun st rest from rfl, hpre]
      simp
    · have hu : evt.usage = none := by
        simp only [List.all_cons, Bool.and_eq_true] at h1
        simpa [azNoUsage] using h1.1
      have h1' : rest.all azNoUsage = true := by
        simp only [List.all_cons, Bool.and_eq_true] at h1
        exact h1.2
      have h2' := h2
      rw [show azNoToolRet st (ALine.chunk evt :: rest) =
        (if ((evt.choices.getD []).any
            (fun ch => ch.finish_reason = some "tool_calls")) ∧
            ((evt.choices.getD []).foldl azProcChoice
              (azModelEvent st evt.model)).2.current_tool_calls ≠ [] then
          false
         else
          match azStep st (ALine.chunk evt) with
          | .cont _ st2 => azNoToolRet st2 rest
          | _ => true) from rfl] at h2'
      by_cases hcond : ((evt.choices.getD []).any
          (fun ch => ch.finish_reason = some "tool_calls")) ∧
          ((evt.choices.getD []).foldl azProcChoice
            (azModelEvent st evt.model)).2.current_tool_calls ≠ []
      · rw [if_pos hcond] at h2'
        exact absurd h2' (by simp)
      rw [if_neg hcond] at h2'
      have heq : azStep st (ALine.chunk evt) =
          azChunkRest (azModelEvent st evt.model).2 evt
            (azModelEvent st evt.model).1 := rfl
      rcases azChunkRest_inv (azModelEvent st evt.model) evt hu hcond with
        ⟨evs, st2, hstep⟩ | hret
      · have hstep' : azStep st (ALine.chunk evt) = .cont evs st2 := heq.trans hstep
        have hstop : azStopState st (ALine.chunk evt :: rest) = azStopState st2 rest := by
          rw [show azStopState st (ALine.chunk evt :: rest) =
            (match azStep st (ALine.chunk evt) with
             | .cont _ s2 => azStopState s2 rest
             | _ => ((evt.choices.getD []).foldl azProcChoice
                 (azModelEvent st evt.model)).2) from rfl, hstep']
        rw [hstep'] at h2'
        dsimp only at h2'
        rw [hstop] at h3 h4
        obtain ⟨pre, hpre⟩ := ih st2 h1' h2' h3 h4
        refine ⟨evs ++ pre, ?_⟩
        rw [hstop]
        rw [show azRun st (ALine.chunk evt :: rest) =
          (match azStep st (ALine.chunk evt) with
           | .cont evs st2 => evs ++ azRun st2 rest
           | .brk evs st2 => evs ++ azEpilogue st2
           | .ret evs => evs) from rfl, hstep']
        dsimp only
        rw [hpre, List.append_assoc]
      · have hstep' := heq.trans hret
        have hstop : azStopState st (ALine.chunk evt :: rest) =
            ((evt.choices.getD []).foldl azProcChoice (azModelEvent st evt.model)).2 := by
          rw [show azStopState st (ALine.chunk evt :: rest) =
            (match azStep st (ALine.chunk evt) with
             | .cont _ s2 => azStopState s2 rest
             | _ => ((evt.choices.getD []).foldl azProcChoice
                 (azModelEvent st evt.model)).2) from rfl, hstep']
        rw [hstop] at h3 h4
        refine ⟨((evt.choices.getD []).foldl azProcChoice
          (azModelEvent st evt.model)).1, ?_⟩
        rw [hstop]
        rw [show azRun st (ALine.chunk evt :: rest) =
          (match azStep st (ALine.chunk evt) with
           | .cont evs st2 => evs ++ azRun st2 rest
           | .brk evs st2 => evs ++ azEpilogue st2
           | .ret evs => evs) from rfl, hstep']
        dsimp only
        rw [if_pos h4]
        simp

theorem tilde_head_append (a b : String) (h : a.toList.head? = some '~') :
    (a ++ b).toList.head? = some '~' := by
  obtain ⟨la⟩ := a
  obtain ⟨lb⟩ := b
  show (la ++ lb).head? = some '~'
  cases la with
  | nil => exact absurd h (by simp [String.toList])
  | cons c r =>
    have : c = '~' := by simpa [String.toList] using h
    simp [this]

theorem azEstimateInfo_tilde (s : String) :
    (azEstimateInfo s).toList.head? = some '~' := by
  unfold azEstimateInfo
  dsimp only
  repeat' apply tilde_head_append
  rfl

/-- The refuting input: a text chunk, then a chunk that starts a tool call
and finishes with `finish_reason == "tool_calls"`; no usage data ever
arrives. -/
def c8ToolCall : AToolCall :=
  { index := some 0, id := some "t1",
    function := some { name := some "calc", arguments := some "\x7b\x7d" } }

def c8Lines : List ALine :=
  [.chunk { choices := some [{ delta := some { content := some "hi" } }] },
   .chunk { choices := some
              [{ delta := some { tool_calls := some [c8ToolCall] },
                 finish_reason := some "tool_calls" }] }]

/-- C8 (refuted as stated).  On `c8Lines` a finish_reason is observed, the
stream ends without usage data and the accumulated text is nonempty, yet
the mapper returns from the `tool_calls` branch emitting neither a tokens
event nor a done event. -/
theorem azureEstimation_counterexample :
    (c8Lines.all fun l => match l with
      | ALine.chunk evt => evt.usage == none
      | _ => true) = true ∧
    c8Lines.any azHasFinish = true ∧
    azAccText c8Lines ≠ "" ∧
    azureMapEvents c8Lines =
      [⟨"text", some "hi"⟩,
       ⟨"tool_start", some "\x7b\"id\": \"t1\", \"name\": \"calc\"\x7d"⟩,
       ⟨"tool_input_delta", some "\x7b\x7d"⟩, ⟨"tool_ready", none⟩] ∧
    (azureMapEvents c8Lines).filter
      (fun ev => ev.kind == "tokens" || ev.kind == "done") = [] := by
  refine ⟨?_, ?_, ?_, ?_, ?_⟩ <;> decide

/-- C8 (amended).  For every line sequence with no usage data on which
the tracked-tool-calls early return (the refuting case) does not fire,
if the mapper stops -- at a returning chunk such as a trailing
empty-choices chunk, at a `[DONE]` line, or at end of input -- with a
finish_reason observed and nonempty accumulated text, its output ends
with a tokens event holding the `~`-marked estimate for that accumulated
text followed by a done event; the estimate value always begins with
`~`. -/
theorem azureEstimation_amended (lines : List ALine)
    (h1 : lines.all azNoUsage = true)
    (h2 : azNoToolRet AzState.init lines = true)
    (h3 : (azStopState AzState.init lines).has_finished = true)
    (h4 : (azStopState AzState.init lines).accumulated_text ≠ "") :
    ∃ pre, azureMapEvents lines =
      pre ++ [⟨"tokens", some (azEstimateInfo
        (azStopState AzState.init lines).accumulated_text)⟩, ⟨"done", none⟩] ∧
      (azEstimateInfo
        (azStopState AzState.init lines).accumulated_text).toList.head? =
        some '~' := by
  obtain ⟨pre, hpre⟩ := azRun_ends lines AzState.init h1 h2 h3 h4
  exact ⟨pre, by rw [azureMapEvents, hpre], azEstimateInfo_tilde _⟩

/-- The witness input: a model/text chunk, a chunk whose single choice
finishes with `"stop"`, then a trailing empty-choices chunk that triggers
the mid-loop fallback; no usage data ever arrives. -/
def c8WitnessLines : List ALine :=
  [.chunk { model := some "gpt",
            choices := some [{ delta := some { content := some "hi there" } }] },
   .chunk { choices := some [{ delta := some {}, finish_reason := some "stop" }] },
   .chunk { choices := some [] }]

theorem azureEstimation_witness :
    c8WitnessLines.all azNoUsage = true ∧
    azNoToolRet AzState.init c8WitnessLines = true ∧
    (azStopState AzState.init c8WitnessLines).has_finished = true ∧
    (azStopState AzState.init c8WitnessLines).accumulated_text ≠ "" ∧
    (∃ pre, azureMapEvents c8WitnessLines =
      pre ++ [⟨"tokens", some (azEstimateInfo
        (azStopState AzState.init c8WitnessLines).accumulated_text)⟩,
        ⟨"done", none⟩] ∧
      (azEstimateInfo
        (azStopState AzState.init c8WitnessLines).accumulated_text).toList.head? =
        some '~') :=
  ⟨by decide, by decide, by decide, by decide,
   azureEstimation_amended c8WitnessLines (by decide) (by decide) (by decide)
     (by decide)⟩


/-! ### Tool executor (`tools/executor.py`)

External effects (HTTP fetches, `eval`, the clock, the `util.*` imports)
are oracle fields of `ToolEnv`; an oracle's `.error e` models the Python
call raising an exception with message `e`.  A handler returning
`.error e` models an exception propagating out of the handler into
`execute_tool`'s outer `try`. -/

/-- `s.strip()`. -/
def pyStrip (s : String) : String :=
  String.mk (((s.toList.dropWhile isPyWs).reverse.dropWhile isPyWs).reverse)

/-- `s.lower()` (ASCII). -/
def pyLower (s : String) : String := String.mk (s.toList.map Char.toLower)

/-- `s.upper()` (ASCII). -/
def pyUpper (s : String) : String := String.mk (s.toList.map Char.toUpper)

/-- `params.get(k, dflt).strip()`: a present non-string value raises
`AttributeError`. -/
def getStrip (params : List (String × J)) (k dflt : String) :
    Except String String :=
  match jGet params k with
  | none => .ok (pyStrip dflt)
  | some (.str s) => .ok (pyStrip s)
  | some _ => .error "AttributeError: object has no attribute strip"

/-- `params.get(k, dflt).lower()`. -/
def getLower (params : List (String × J)) (k dflt : String) :
    Except String String :=
  match jGet params k with
  | none => .ok (pyLower dflt)
  | some (.str s) => .ok (pyLower s)
  | some _ => .error "AttributeError: object has no attribute lower"

/-- `(params.get(k) or dflt).strip()`: a falsy value falls back to `dflt`,
a truthy non-string raises on `.strip()`. -/
def getOrStrip (params : List (String × J)) (k : String) (dflt : String) :
    Except String String :=
  match jGet params k with
  | none => .ok (pyStrip dflt)
  | some v =>
    if jTruthy v then
      match v with
      | .str s => .ok (pyStrip s)
      | _ => .error "AttributeError: object has no attribute strip"
    else .ok (pyStrip dflt)

/-- `int(v)` on a JSON-shaped value. -/
def pyIntOfJ : J → Except String Int
  | .num n => .ok n
  | .bool b => .ok (if b then 1 else 0)
  | .str s =>
    let l := ((s.toList.dropWhile isPyWs).reverse.dropWhile isPyWs).reverse
    (match l with
     | '-' :: ds =>
       if pyIsDigit ds then .ok (-(natOfDigits ds : Int))
       else .error ("ValueError: invalid literal for int: " ++ s)
     | '+' :: ds =>
       if pyIsDigit ds then .ok (natOfDigits ds : Int)
       else .error ("ValueError: invalid literal for int: " ++ s)
     | ds =>
       if pyIsDigit ds then .ok (natOfDigits ds : Int)
       else .error ("ValueError: invalid literal for int: " ++ s))
  | _ => .error "TypeError: int() argument"

/-- `float(v)` on a JSON-shaped value. -/
def pyFloatOfJ : J → Except String PyFloat
  | .num n => .ok ⟨n, 1⟩
  | .bool b => .ok ⟨if b then 1 else 0, 1⟩
  | .str s =>
    (match parseDecimal s with
     | some q => .ok q
     | none => .error ("ValueError: could not convert string to float: " ++ s))
  | _ => .error "TypeError: float() argument"

/-- `str(v)` for the values interpolated into error messages (container
reprs abbreviated). -/
def pyStrJ : J → String
  | .str s => s
  | .num n => toString n
  | .bool true => "True"
  | .bool false => "False"
  | .null => "None"
  | .arr _ => "[...]"
  | .obj _ => "\x7b...\x7d"

/-- The character class of the calculator's safe-expression regex
(ASCII word characters). -/
def safeChar (c : Char) : Bool :=
  c.isDigit || c = '+' || c = '-' || c = '*' || c = '/' || c = '(' || c = ')' ||
    c = '.' || c = ',' || isPyWs c || c.isAlpha || c = '_'

def strReplaceAux : Nat → List Char → List Char → List Char → List Char
  | 0, _, _, l => l
  | _ + 1, _, _, [] => []
  | fuel + 1, pat, rep, c :: r =>
    if pat ≠ [] ∧ (c :: r).take pat.length = pat then
      rep ++ strReplaceAux fuel pat rep ((c :: r).drop pat.length)
    else c :: strReplaceAux fuel pat rep r

/-- `s.replace(pat, rep)` (all occurrences, left to right). -/
def pyReplace (s pat rep : String) : String :=
  String.mk (strReplaceAux s.toList.length pat.toList rep.toList s.toList)

/-- Outcome of `util.rails_callbacks.list_callbacks_for_model`: either the
raw dict matched the error shape the source checks for, or it formats into
a summary. -/
inductive RailsRt where
  | errDict (msg : J) (reprS : String)
  | okRes (content : String) (raw : J)
  deriving Repr

/-- The external world of `ToolExecutor`: the configured API key and one
oracle per external call. -/
structure ToolEnv where
  weather_api_key : Option String
  weatherFetch : Except String (String × J)
  calcEval : String → Except String (String × J)
  clockIso : String
  clockUnix : String
  clockHuman : String
  railsEnv : String
  staticScan : Except String (Bool × String × J)
  runtimeScan : Except String RailsRt
  searchRun : Except String (Nat × J)
  readRun : Except String (Int × Int × J)
  flowRun : Except String (String × J)

/-- `_get_weather`. -/
def getWeather (apiKey : Option String) (fetch : Except String (String × J))
    (params : List (String × J)) : Except String (List (String × J)) :=
  match getStrip params "location" "" with
  | .error e => .error e
  | .ok location =>
    match getLower params "units" "celsius" with
    | .error e => .error e
    | .ok _units =>
      if location = "" then
        .ok [("error", J.str "Location is required"),
             ("content", J.str "Please provide a location.")]
      else if apiKey.getD "" = "" then
        .ok [("error", J.str "Weather API key not configured"),
             ("content", J.str "Weather service is not available. Set OPENWEATHER_API_KEY environment variable.")]
      else
        match fetch with
        | .ok (content, data) => .ok [("content", J.str content), ("data", data)]
        | .error e =>
          .ok [("error", J.str ("Weather lookup failed: " ++ e)),
               ("content", J.str ("Could not get weather for " ++ location ++
                 ". Please check the location name."))]

/-- `_calculate`. -/
def calculate (evalO : String → Except String (String × J))
    (params : List (String × J)) : Except String (List (String × J)) :=
  match getStrip params "expression" "" with
  | .error e => .error e
  | .ok expression =>
    if expression = "" then
      .ok [("error", J.str "Expression is required"),
           ("content", J.str "Please provide a mathematical expression.")]
    else if ¬(expression.toList ≠ [] ∧ expression.toList.all safeChar) then
      .ok [("error", J.str "Invalid characters in expression"),
           ("content", J.str "Expression contains invalid characters. Only numbers, operators (+,-,*,/), parentheses, and basic math functions are allowed.")]
    else
      let s1 := pyReplace (pyLower expression) "sqrt" "math.sqrt"
      let s2 := pyReplace s1 "sin" "math.sin"
      let s3 := pyReplace s2 "cos" "math.cos"
      let s4 := pyReplace s3 "tan" "math.tan"
      let s5 := pyReplace s4 "log" "math.log"
      let s6 := pyReplace s5 "exp" "math.exp"
      let s7 := pyReplace s6 "pi" "math.pi"
      let safe_expression := pyReplace s7 "e" "math.e"
      match evalO safe_expression with
      | .ok (resultStr, result) =>
        .ok [("content", J.str (expression ++ " = " ++ resultStr)),
             ("result", result)]
      | .error e =>
        .ok [("error", J.str ("Calculation failed: " ++ e)),
             ("content", J.str ("Could not evaluate '" ++ expression ++
               "'. Please check the expression syntax."))]

/-- `v == s` for a JSON value compared against a string (Python `==`
between a non-string and a string is `False`). -/
def jEqStr (v : J) (s : String) : Bool :=
  match v with
  | .str t => t = s
  | _ => false

/-- `_get_current_time`. -/
def getCurrentTime (clockIso clockUnix clockHuman : String)
    (params : List (String × J)) : Except String (List (String × J)) :=
  let timezoneJ := (jGet params "timezone").getD (J.str "UTC")
  let formatJ := (jGet params "format").getD (J.str "human")
  match timezoneJ with
  | .str timezone =>
    let tz_info := if pyUpper timezone = "UTC" then "UTC" else "local time"
    let time_str := if jEqStr formatJ "iso" then clockIso
      else if jEqStr formatJ "unix" then clockUnix
      else clockHuman
    .ok [("content", J.str ("Current time (" ++ tz_info ++ "): " ++ time_str)),
         ("timestamp", J.str time_str), ("timezone", J.str tz_info)]
  | _ =>
    .ok [("error", J.str "Time lookup failed: AttributeError: object has no attribute upper"),
         ("content", J.str ("Could not get current time for timezone: " ++
           pyStrJ timezoneJ))]

/-- The code of `_rails_callbacks` after the static-scan `try` decided not
to return (runtime fallback and final no-results dict). -/
def railsCallbacksTail (model : String) (force_runtime : Bool)
    (static_err : Option String) (runtimeScan : Except String RailsRt) :
    List (String × J) :=
  if force_runtime then
    match runtimeScan with
    | .ok (.errDict msg reprS) =>
      [("error", msg), ("content", J.str ("Rails error: " ++ reprS))]
    | .ok (.okRes content raw) => [("content", J.str content), ("data", raw)]
    | .error e =>
      [("error", J.str ("Rails callbacks inspection failed: " ++ e)),
       ("content", J.str ("Could not inspect callbacks for " ++ model ++ "."))]
  else
    [("error", J.str "No results"),
     ("content", J.str ("No callbacks found via static scan. If this seems wrong, pass force_runtime:true to try a slow runtime inspection." ++
       (match static_err with
        | some e => " Static error: " ++ e
        | none => "")))]

/-- `_rails_callbacks`. -/
def railsCallbacks (railsEnv : String)
    (staticScan : Except String (Bool × String × J))
    (runtimeScan : Except String RailsRt)
    (params : List (String × J)) : Except String (List (String × J)) :=
  match getOrStrip params "model" "" with
  | .error e => .error e
  | .ok model =>
    match getOrStrip params "rails_root" railsEnv with
    | .error e => .error e
    | .ok rails_root =>
      match pyFloatOfJ ((jGet params "timeout").getD (J.num 20)) with
      | .error e => .error e
      | .ok _timeout =>
        let force_runtime := jTruthy ((jGet params "force_runtime").getD (J.bool false))
        if model = "" then
          .ok [("error", J.str "'model' is required"),
               ("content", J.str "Please provide a model class name.")]
        else if rails_root = "" then
          .ok [("error", J.str "'rails_root' is required"),
               ("content", J.str "Please provide the Rails app root path or set RAILS_ROOT.")]
        else
          match staticScan with
          | .ok (hasResults, content, raw) =>
            if hasResults ∧ force_runtime = false then
              .ok [("content", J.str content), ("data", raw)]
            else .ok (railsCallbacksTail model force_runtime none runtimeScan)
          | .error e =>
            .ok (railsCallbacksTail model force_runtime (some e) runtimeScan)

/-- `_code_search`. -/
def codeSearch (railsEnv : String) (rg : Except String (Nat × J))
    (params : List (String × J)) : Except String (List (String × J)) :=
  match getOrStrip params "query" "" with
  | .error e => .error e
  | .ok query =>
    if query = "" then
      .ok [("error", J.str "'query' is required"),
           ("content", J.str "Provide a search query.")]
    else
      match getOrStrip params "root" railsEnv with
      | .error e => .error e
      | .ok root =>
        if root = "" then
          .ok [("error", J.str "'root' is required"),
               ("content", J.str "Provide root or set RAILS_ROOT.")]
        else
          match pyIntOfJ ((jGet params "max_results").getD (J.num 200)) with
          | .error e => .error e
          | .ok _max_results =>
            match pyIntOfJ ((jGet params "context_lines").getD (J.num 0)) with
            | .error e => .error e
            | .ok _context_lines =>
              match rg with
              | .ok (n, ms) =>
                .ok [("content", J.str ("Found " ++ toString n ++ " matches")),
                     ("data", ms)]
              | .error e =>
                .ok [("error", J.str e),
                     ("content", J.str ("Search error: " ++ e))]

/-- `_code_read`. -/
def codeRead (readO : Except String (Int × Int × J))
    (params : List (String × J)) : Except String (List (String × J)) :=
  match getOrStrip params "path" "" with
  | .error e => .error e
  | .ok path =>
    if path = "" then
      .ok [("error", J.str "'path' is required"),
           ("content", J.str "Provide a file path.")]
    else
      match pyIntOfJ ((jGet params "start").getD (J.num 1)) with
      | .error e => .error e
      | .ok _start =>
        match (match (jGet params "end").getD J.null with
               | J.null => .ok 0
               | v => pyIntOfJ v : Except String Int) with
        | .error e => .error e
        | .ok _eend =>
          match readO with
          | .ok (s, e, data) =>
            .ok [("content", J.str ("Read " ++ path ++ ":" ++ toString s ++ "-" ++
                   toString e)), ("data", data)]
          | .error e =>
            .ok [("error", J.str e), ("content", J.str ("Read error: " ++ e))]

/-- `_rails_flow_after_persist`. -/
def railsFlow (railsEnv : String) (flowO : Except String (String × J))
    (params : List (String × J)) : Except String (List (String × J)) :=
  match getOrStrip params "model" "" with
  | .error e => .error e
  | .ok model =>
    match getOrStrip params "verb" "create" with
    | .error e => .error e
    | .ok _verb =>
      match getOrStrip params "rails_root" railsEnv with
      | .error e => .error e
      | .ok rails_root =>
        if model = "" then
          .ok [("error", J.str "'model' is required"),
               ("content", J.str "Provide a model name.")]
        else if rails_root = "" then
          .ok [("error", J.str "'rails_root' is required"),
               ("content", J.str "Provide Rails root or set RAILS_ROOT.")]
        else
          match flowO with
          | .ok (content, raw) =>
            .ok [("content", J.str content), ("data", raw)]
          | .error e =>
            .ok [("error", J.str e),
                 ("content", J.str ("Flow analysis error: " ++ e))]

/-- The `if/elif` dispatcher inside `execute_tool`'s `try`; the final
`else` returns the unknown-tool dict. -/
def dispatchTool (env : ToolEnv) (tool_name : String)
    (parameters : List (String × J)) : Except String (List (String × J)) :=
  if tool_name = "get_weather" then
    getWeather env.weather_api_key env.weatherFetch parameters
  else if tool_name = "calculate" then
    calculate env.calcEval parameters
  else if tool_name = "get_current_time" then
    getCurrentTime env.clockIso env.clockUnix env.clockHuman parameters
  else if tool_name = "rails_callbacks" then
    railsCallbacks env.railsEnv env.staticScan env.runtimeScan parameters
  else if tool_name = "code_search" then
    codeSearch env.railsEnv env.searchRun parameters
  else if tool_name = "code_read" then
    codeRead env.readRun parameters
  else if tool_name = "rails_flow_after_persist" then
    railsFlow env.railsEnv env.flowRun parameters
  else
    .ok [("error", J.str ("Unknown tool: " ++ tool_name)),
         ("content", J.str ("Tool '" ++ tool_name ++ "' is not available."))]

/-- `ToolExecutor.execute_tool`: the dispatcher wrapped in the outer
`try/except`. -/
def execute_tool (env : ToolEnv) (tool_name : String)
    (parameters : List (String × J)) : List (String × J) :=
  match dispatchTool env tool_name parameters with
  | .ok d => d
  | .error e =>
    [("error", J.str e),
     ("content", J.str ("Error executing " ++ tool_name ++ ": " ++ e))]

theorem railsCallbacksTail_content (model : String) (fr : Bool)
    (se : Option String) (rt : Except String RailsRt) :
    (jGet (railsCallbacksTail model fr se rt) "content").isSome = true := by
  unfold railsCallbacksTail
  repeat' split
  all_goals rfl

theorem getWeather_content (k : Option String) (f : Except String (String × J))
    (p : List (String × J)) (d : List (String × J))
    (hd : getWeather k f p = .ok d) : (jGet d "content").isSome = true := by
  unfold getWeather at hd
  repeat' first
    | split at hd
    | dsimp only at hd
  all_goals try exact Except.noConfusion hd
  all_goals injection hd with h
  all_goals subst h
  all_goals rfl

theorem calculate_content (ev : String → Except String (String × J))
    (p : List (String × J)) (d : List (String × J))
    (hd : calculate ev p = .ok d) : (jGet d "content").isSome = true := by
  unfold calculate at hd
  repeat' first
    | split at hd
    | dsimp only at hd
  all_goals try exact Except.noConfusion hd
  all_goals injection hd with h
  all_goals subst h
  all_goals rfl

theorem getCurrentTime_content (ci cu ch : String)
    (p : List (String × J)) (d : List (String × J))
    (hd : getCurrentTime ci cu ch p = .ok d) :
    (jGet d "content").isSome = true := by
  unfold getCurrentTime at hd
  repeat' first
    | split at hd
    | dsimp only at hd
  all_goals try exact Except.noConfusion hd
  all_goals injection hd with h
  all_goals subst h
  all_goals rfl

theorem railsCallbacks_content (re : String)
    (ss : Except String (Bool × String × J)) (rt : Except String RailsRt)
    (p : List (String × J)) (d : List (String × J))
    (hd : railsCallbacks re ss rt p = .ok d) :
    (jGet d "content").isSome = true := by
  unfold railsCallbacks at hd
  repeat' first
    | split at hd
    | dsimp only at hd
  all_goals try exact Except.noConfusion hd
  all_goals injection hd with h
  all_goals subst h
  all_goals try rfl
  all_goals exact railsCallbacksTail_content _ _ _ _

theorem codeSearch_content (re : String) (rg : Except String (Nat × J))
    (p : List (String × J)) (d : List (String × J))
    (hd : codeSearch re rg p = .ok d) : (jGet d "content").isSome = true := by
  unfold codeSearch at hd
  repeat' first
    | split at hd
    | dsimp only at hd
  all_goals try exact Except.noConfusion hd
  all_goals injection hd with h
  all_goals subst h
  all_goals rfl

theorem codeRead_content (ro : Except String (Int × Int × J))
    (p : List (String × J)) (d : List (String × J))
    (hd : codeRead ro p = .ok d) : (jGet d "content").isSome = true := by
  unfold codeRead at hd
  repeat' first
    | split at hd
    | dsimp only at hd
  all_goals try exact Except.noConfusion hd
  all_goals injection hd with h
  all_goals subst h
  all_goals rfl

theorem railsFlow_content (re : String) (fo : Except String (String × J))
    (p : List (String × J)) (d : List (String × J))
    (hd : railsFlow re fo p = .ok d) : (jGet d "content").isSome = true := by
  unfold railsFlow at hd
  repeat' first
    | split at hd
    | dsimp only at hd
  all_goals try exact Except.noConfusion hd
  all_goals injection hd with h
  all_goals subst h
  all_goals rfl

/-- C10 (confirmed).  `execute_tool` always returns a dict with a
`content` key and never raises (it is a total function; the outer
`except` converts a handler exception into an error/content dict, stated
as the third conjunct); an unsupported tool name also yields an `error`
key. -/
theorem executor_totality (env : ToolEnv) (tool_name : String)
    (parameters : List (String × J)) :
    (jGet (execute_tool env tool_name parameters) "content").isSome = true ∧
    (tool_name ∉ (["get_weather", "calculate", "get_current_time",
        "rails_callbacks", "code_search", "code_read",
        "rails_flow_after_persist"] : List String) →
      (jGet (execute_tool env tool_name parameters) "error").isSome = true) ∧
    (∀ e, dispatchTool env tool_name parameters = Except.error e →
      execute_tool env tool_name parameters =
        [("error", J.str e),
         ("content", J.str ("Error executing " ++ tool_name ++ ": " ++ e))]) := by
  refine ⟨?_, ?_, ?_⟩
  · unfold execute_tool
    cases hdp : dispatchTool env tool_name parameters with
    | error e => rfl
    | ok d =>
      unfold dispatchTool at hdp
      repeat' split at hdp
      · exact getWeather_content _ _ _ _ hdp
      · exact calculate_content _ _ _ hdp
      · exact getCurrentTime_content _ _ _ _ _ hdp
      · exact railsCallbacks_content _ _ _ _ _ hdp
      · exact codeSearch_content _ _ _ _ hdp
      · exact codeRead_content _ _ _ hdp
      · exact railsFlow_content _ _ _ _ hdp
      · injection hdp with h
        subst h
        rfl
  · intro hmem
    have h1 : ¬tool_name = "get_weather" := by intro h; exact hmem (by simp [h])
    have h2 : ¬tool_name = "calculate" := by intro h; exact hmem (by simp [h])
    have h3 : ¬tool_name = "get_current_time" := by intro h; exact hmem (by simp [h])
    have h4 : ¬tool_name = "rails_callbacks" := by intro h; exact hmem (by simp [h])
    have h5 : ¬tool_name = "code_search" := by intro h; exact hmem (by simp [h])
    have h6 : ¬tool_name = "code_read" := by intro h; exact hmem (by simp [h])
    have h7 : ¬tool_name = "rails_flow_after_persist" := by
      intro h; exact hmem (by simp [h])
    unfold execute_tool dispatchTool
    rw [if_neg h1, if_neg h2, if_neg h3, if_neg h4, if_neg h5, if_neg h6, if_neg h7]
    rfl
  · intro e he
    unfold execute_tool
    rw [he]

def c10Env : ToolEnv :=
  { weather_api_key := none, weatherFetch := .error "offline",
    calcEval := fun _ => .error "offline", clockIso := "1970-01-01T00:00:00",
    clockUnix := "0", clockHuman := "1970-01-01 00:00:00", railsEnv := "",
    staticScan := .error "offline", runtimeScan := .error "offline",
    searchRun := .error "offline", readRun := .error "offline",
    flowRun := .error "offline" }

theorem executor_totality_witness :
    (jGet (execute_tool c10Env "frobnicate" []) "content").isSome = true ∧
    ("frobnicate" ∉ (["get_weather", "calculate", "get_current_time",
        "rails_callbacks", "code_search", "code_read",
        "rails_flow_after_persist"] : List String) →
      (jGet (execute_tool c10Env "frobnicate" []) "error").isSome = true) ∧
    (∀ e, dispatchTool c10Env "frobnicate" [] = Except.error e →
      execute_tool c10Env "frobnicate" [] =
        [("error", J.str e),
         ("content", J.str ("Error executing " ++ "frobnicate" ++ ": " ++ e))]) :=
  executor_totality c10Env "frobnicate" []

end LlmStream
